import Mathlib

/-! The redis-junk work partitioner and worker pool coordinator.

A shallow embedding of `main.go`.

* `uint` values are natural numbers; the one addition that could wrap
  (`shares[workers-1] += r`) is reduced modulo `uintSize`.
* Go `error` values are strings, a nilable error is an `Option`.
* Run-time panics (division by zero, index out of range, a `make` that cannot
  be granted, nil dereference, negative WaitGroup counter) are the `error` of
  an `Except` with the cause, or the `panicked` status of a run.
* `make` is granted up to an allocation limit `lim`, a parameter of the model:
  the `maxAlloc` of the runtime, or less when memory is short. A length that
  is negative as an `int` is refused whatever the limit. Memory used outside
  `make` (goroutine stacks, string concatenation) is not accounted for.
* Pointers to `options` records are indices into a heap of records.
* The goroutines of `junk` are interleaved by an explicit schedule of events.
  A step of a goroutine holds one interaction with the shared state: the
  `select` on `ctx.Done()`, the call `client.Set`, or the locked `setErr`
  with the deferred `wg.Done()`. The random draws of one item are made in the
  step of its write; the process-wide source is a stream of naturals.
* `junk` returns when `wg.Wait()` finds the counter at zero; a run is a
  schedule, and termination is stated as: from every state of a run there is a
  schedule under which `junk` returns.
-/

namespace RedisJunk

/-! ## Machine integers and errors -/

/-- The number of values of the Go type `uint` (64-bit platforms). -/
def uintSize : Nat := 2 ^ 64

/-- A non-nil Go `error` value. -/
abbrev error := String

/-- The size in bytes of a `uint` (64-bit platforms). -/
def uintBytes : Nat := 8

/-- The causes of a run-time panic. -/
inductive Panic where
  | divideByZero
  | indexOutOfRange
  | makeslice
  | nilDereference
  | negativeWaitGroup
deriving DecidableEq

deriving instance DecidableEq for Except

/-- Whether `make([]T, len)` is granted, for elements of `elemSize` bytes and a
length of type `uint`: the runtime panics (`makeslice: len out of range`) when
the length is negative as an `int`, when the size in bytes overflows, or when
it exceeds the allocation limit `lim`. -/
def makeslice (lim elemSize len : Nat) : Bool :=
  decide (len < 2 ^ 63) && decide (elemSize * len < uintSize)
    && decide (elemSize * len ≤ lim)

/-! ## `options` and `setDefaultOptions` -/

/-- The `options` struct. `Expiration` is a `time.Duration` (nanoseconds). -/
structure options where
  KeyPrefix : String
  Expiration : Int
  NumKeys : Nat
  ValueLength : Nat
  Parallelism : Nat
deriving DecidableEq

/-- Every `uint` field of the record is in range. -/
def options.inRange (o : options) : Prop :=
  o.NumKeys < uintSize ∧ o.ValueLength < uintSize ∧ o.Parallelism < uintSize

instance (o : options) : Decidable o.inRange := by
  unfold options.inRange; infer_instance

/-- The memory holding `options` records; a pointer is an index. -/
abbrev Heap := List options

/-- The function `setDefaultOptions(opts *options) *options`: copies the pointee into the
local `o`, overwrites the zero fields, and returns the address of `o`, which
escapes to a fresh heap cell. Dereferencing an invalid pointer panics. -/
def setDefaultOptions (h : Heap) (opts : Nat) : Option (Nat × Heap) :=
  match h[opts]? with
  | none => none
  | some o =>
    let o := if o.NumKeys = 0 then { o with NumKeys := 51200 } else o
    let o := if o.ValueLength = 0 then { o with ValueLength := 10240 } else o
    let o := if o.Parallelism = 0 then { o with Parallelism := 4 } else o
    some (h.length, h ++ [o])

/-! ## `keyShares` -/

/-- The loop `for i := uint(0); i < workers; i++ { shares[i] = s }`, with
`n = workers - i` iterations left. An index out of range panics. -/
def keyShares.fill (s : Nat) : Nat → Nat → List Nat → Except Panic (List Nat)
  | 0, _, shares => .ok shares
  | n + 1, i, shares =>
    if i < shares.length then keyShares.fill s n (i + 1) (shares.set i s)
    else .error .indexOutOfRange

/-- The function `keyShares(keys, workers uint) []uint`. Division by zero, a
`make([]uint, workers)` that is not granted and an index out of range panic. -/
def keyShares (lim keys workers : Nat) : Except Panic (List Nat) :=
  if workers = 0 then .error .divideByZero
  else
    let s := keys / workers
    let r := keys % workers
    if makeslice lim uintBytes workers = false then .error .makeslice
    else
      let shares := List.replicate workers 0
      match keyShares.fill s workers 0 shares with
      | .error p => .error p
      | .ok shares =>
        match shares[workers - 1]? with
        | none => .error .indexOutOfRange
        | some x => .ok (shares.set (workers - 1) ((x + r) % uintSize))

/-- The sum of a sequence of `uint` values computed in `uint` arithmetic. -/
def uintSum (xs : List Nat) : Nat :=
  xs.foldl (fun acc x => (acc + x) % uintSize) 0

/-! ## Key and value generation -/

/-- The package-level `alphabet`. -/
def alphabet : String := "abcdefghijklmnopqrstuvwxyzABCDEFGHIJKLMNOPQRSTUVWXYZ0123456789"

/-- The loop of `randomString`, with `n = length - i` iterations left:
`s[i] = alphabet[rand.Int() % len(alphabet)]`. The process-wide random source
is the stream `rnd`, read at position `pos`. A zero modulus or an index out of
range panics. -/
def randomString.loop (rnd : Nat → Nat) :
    Nat → Nat → Nat → List Char → Except Panic (List Char × Nat)
  | 0, _, pos, s => .ok (s, pos)
  | n + 1, i, pos, s =>
    if alphabet.length = 0 then .error .divideByZero
    else
      match alphabet.data[rnd pos % alphabet.length]? with
      | none => .error .indexOutOfRange
      | some c =>
        if i < s.length then randomString.loop rnd n (i + 1) (pos + 1) (s.set i c)
        else .error .indexOutOfRange

/-- The function `randomString(length uint) string`; returns the string and
the new position in the random stream. A `make([]byte, length)` that is not
granted panics. -/
def randomString (lim : Nat) (rnd : Nat → Nat) (pos length : Nat) :
    Except Panic (String × Nat) :=
  if makeslice lim 1 length = false then .error .makeslice
  else
    let s := List.replicate length (Char.ofNat 0)
    match randomString.loop rnd length 0 pos s with
    | .error p => .error p
    | .ok (s, pos) => .ok (String.mk s, pos)

/-- The function `generateKey(prefix string) string`. -/
def generateKey (lim : Nat) (rnd : Nat → Nat) (pos : Nat) (pfx : String) :
    Except Panic (String × Nat) :=
  match randomString lim rnd pos 32 with
  | .error p => .error p
  | .ok (s, pos) => .ok (pfx ++ s, pos)

/-- The function `generateValue(length uint) string`. -/
def generateValue (lim : Nat) (rnd : Nat → Nat) (pos length : Nat) :
    Except Panic (String × Nat) :=
  randomString lim rnd pos length

/-- Both buffers of an item, the 32 bytes of the key suffix and the bytes of
the value, are granted. -/
def itemsFit (lim valueLength : Nat) : Bool :=
  makeslice lim 1 32 && makeslice lim 1 valueLength

/-! ## The run outcome slot -/

/-- The closure `setErr` of `junk`, as a function of the captured variable
`firstErr`; the mutex makes the check-then-set atomic. -/
def setErr (firstErr : Option error) (err : Option error) : Option error :=
  match err with
  | none => firstErr
  | some e =>
    match firstErr with
    | none => some e
    | some f => some f

/-- The slot after the calls `setErr(e1)`, ..., `setErr(en)` in this order. -/
def setErrs (firstErr : Option error) (errs : List (Option error)) : Option error :=
  errs.foldl setErr firstErr

/-! ## The coordinator `junk` -/

/-- One call `client.Set(k, v, opts.Expiration)`. -/
structure Write where
  key : String
  value : String
  expiration : Int
deriving DecidableEq

/-- The write dependency: the result of `client.Set(k, v, ttl).Err()`, which
may depend on the writes issued before it; `none` is a nil error. -/
abbrev Client := List Write → Write → Option error

/-- The control point of a goroutine running the closure `work`: at the head
of the loop (loop test and `select`), before the write of the current
iteration, before a call `setErr(err)` that is followed by `return`, or
terminated. -/
inductive PC where
  | top
  | write
  | seterr (err : Option error)
  | done
deriving DecidableEq

/-- A goroutine `work(keys)`: its argument, its loop counter `i`, its control
point, and the number of `client.Set` calls it has issued. -/
structure Worker where
  keys : Nat
  i : Nat
  pc : PC
  writes : Nat
deriving DecidableEq

/-- Whether `junk` is still running, has returned `firstErr`, or the process
has panicked, with the cause. -/
inductive Status where
  | running
  | returned (err : Option error)
  | panicked (cause : Panic)
deriving DecidableEq

/-- The state of a call of `junk`: its local variables `opts` (the record
behind the pointer), `shares`, `wg`, `firstErr` and the counter `i` of the
launch loop; the goroutines started so far; the state of `ctx` (`none` while
it is not done, otherwise the value of `ctx.Err()`); the writes issued so far;
and the position in the random stream. -/
structure State where
  opts : options
  shares : List Nat
  ctx : Option error
  i : Nat
  workers : List Worker
  wg : Nat
  firstErr : Option error
  log : List Write
  pos : Nat
  status : Status
deriving DecidableEq

/-- What can happen next: the goroutine of `junk` itself runs, the goroutine
`work` number `j` runs, or the context is cancelled from outside with
`ctx.Err() = e`. -/
inductive Event where
  | main
  | work (j : Nat)
  | cancel (e : error)
deriving DecidableEq

/-- The process panics. -/
def State.panic (s : State) (cause : Panic) : State := { s with status := .panicked cause }

/-- The deferred `wg.Done()` and the end of goroutine `j`; a negative
WaitGroup counter panics. -/
def finish (j : Nat) (w : Worker) (s : State) : State :=
  if s.wg = 0 then s.panic .negativeWaitGroup
  else { s with wg := s.wg - 1, workers := s.workers.set j { w with pc := .done } }

/-- One step of goroutine `j`, whose record is `w`, of the closure `work`. -/
def workStep (lim : Nat) (client : Client) (rnd : Nat → Nat) (j : Nat) (w : Worker)
    (s : State) : State :=
  match w.pc with
  | .top =>
    if w.i < w.keys then
      match s.ctx with
      | some e => { s with workers := s.workers.set j { w with pc := .seterr (some e) } }
      | none => { s with workers := s.workers.set j { w with pc := .write } }
    else finish j w s
  | .write =>
    match generateKey lim rnd s.pos s.opts.KeyPrefix with
    | .error p => s.panic p
    | .ok (k, pos) =>
      match generateValue lim rnd pos s.opts.ValueLength with
      | .error p => s.panic p
      | .ok (v, pos) =>
        let wr : Write := ⟨k, v, s.opts.Expiration⟩
        match client s.log wr with
        | some e =>
          { s with
            pos := pos, log := s.log ++ [wr],
            workers := s.workers.set j
              { w with writes := w.writes + 1, pc := .seterr (some e) } }
        | none =>
          { s with
            pos := pos, log := s.log ++ [wr],
            workers := s.workers.set j
              { w with writes := w.writes + 1, i := w.i + 1, pc := .top } }
  | .seterr err => finish j w { s with firstErr := setErr s.firstErr err }
  | .done => s

/-- One step of the goroutine of `junk`: an iteration of the launch loop
(`wg.Add(1); go work(shares[i])`), or `wg.Wait()` followed by
`return firstErr`, which blocks while the counter is positive. -/
def mainStep (s : State) : State :=
  if s.i < s.opts.Parallelism then
    match s.shares[s.i]? with
    | none => s.panic .indexOutOfRange
    | some keys =>
      { s with
        wg := s.wg + 1,
        workers := s.workers ++ [⟨keys, 0, .top, 0⟩],
        i := s.i + 1 }
  else if s.wg = 0 then { s with status := .returned s.firstErr }
  else s

/-- One event of a run. Nothing happens once `junk` has returned or the
process has panicked; an event of a goroutine that does not exist or has
terminated changes nothing. -/
def step (lim : Nat) (client : Client) (rnd : Nat → Nat) (ev : Event) (s : State) :
    State :=
  match s.status with
  | .running =>
    match ev with
    | .main => mainStep s
    | .work j =>
      match s.workers[j]? with
      | none => s
      | some w => workStep lim client rnd j w s
    | .cancel e =>
      match s.ctx with
      | none => { s with ctx := some e }
      | some _ => s
  | _ => s

/-- The events of a schedule, one after the other. -/
def exec (lim : Nat) (client : Client) (rnd : Nat → Nat) (sch : List Event) (s : State) :
    State :=
  sch.foldl (fun s ev => step lim client rnd ev s) s

/-- The entry of `junk(ctx, client, opts)`: `opts = setDefaultOptions(opts)`
and the declaration of the local variables. `ctx` is the state of the context
at the call, `h` the memory and `opts` the pointer. -/
def junk.init (lim : Nat) (ctx : Option error) (h : Heap) (opts : Nat) : State :=
  let s0 : State :=
    { opts := ⟨"", 0, 0, 0, 0⟩, shares := [], ctx := ctx, i := 0, workers := [], wg := 0,
      firstErr := none, log := [], pos := 0, status := .running }
  match setDefaultOptions h opts with
  | none => s0.panic .nilDereference
  | some (q, h1) =>
    match h1[q]? with
    | none => s0.panic .nilDereference
    | some o =>
      match keyShares lim o.NumKeys o.Parallelism with
      | .error p => { s0 with opts := o }.panic p
      | .ok shares => { s0 with opts := o, shares := shares }

/-- A run of `junk(ctx, client, opts)` under the schedule `sch`. -/
def junk (lim : Nat) (client : Client) (rnd : Nat → Nat) (ctx : Option error) (h : Heap)
    (opts : Nat) (sch : List Event) : State :=
  exec lim client rnd sch (junk.init lim ctx h opts)

/-- The event is not a cancellation. -/
def Event.isStep (ev : Event) : Bool :=
  match ev with
  | .cancel _ => false
  | _ => true

/-- The schedule holds no cancellation. -/
def neverCancelled (sch : List Event) : Bool :=
  sch.all Event.isStep

/-- The write dependency that succeeds on every call. -/
def okClient : Client := fun _ _ => none

/-- The write dependency that fails with `e` on every call. -/
def failClient (e : error) : Client := fun _ _ => some e

/-! ## Auxiliary notions for reasoning about runs -/

/-- The record that `setDefaultOptions` builds from `o`. -/
def options.effective (o : options) : options :=
  { KeyPrefix := o.KeyPrefix, Expiration := o.Expiration,
    NumKeys := if o.NumKeys = 0 then 51200 else o.NumKeys,
    ValueLength := if o.ValueLength = 0 then 10240 else o.ValueLength,
    Parallelism := if o.Parallelism = 0 then 4 else o.Parallelism }

/-- The sum of a quantity over the goroutines. -/
def sumBy (f : Worker → Nat) (ws : List Worker) : Nat := (ws.map f).sum

/-- One for a goroutine that has not terminated, zero for one that has. -/
def Worker.active (w : Worker) : Nat :=
  match w.pc with
  | .done => 0
  | _ => 1

/-- A bound on the number of steps a goroutine can still take. -/
def Worker.rem (w : Worker) : Nat :=
  match w.pc with
  | .top => 2 * (w.keys - w.i) + 2
  | .write => 2 * (w.keys - w.i) + 1
  | .seterr _ => 1
  | .done => 0

/-- A bound on the number of steps of `junk` and of its goroutines that a run
can still take. -/
def State.measure (s : State) : Nat :=
  (match s.status with
    | .running => 1
    | _ => 0)
  + ((s.shares.drop s.i).map fun k => 2 * k + 3).sum
  + sumBy Worker.rem s.workers

/-- The relation between the loop counter, the share and the number of writes
of a goroutine. -/
def Worker.ok (w : Worker) : Prop :=
  match w.pc with
  | .top => w.writes = w.i ∧ w.i ≤ w.keys
  | .write => w.writes = w.i ∧ w.i < w.keys
  | .seterr _ => w.writes ≤ w.keys
  | .done => w.writes ≤ w.keys

/-- The invariant of every run of `junk` that got its shares: the only panic
is a `make` that is not granted. -/
structure Inv (s : State) : Prop where
  panicCause : ∀ p, s.status = .panicked p → p = .makeslice
  sharesLen : s.shares.length = s.opts.Parallelism
  launched : s.i ≤ s.opts.Parallelism
  keys : s.workers.map Worker.keys = s.shares.take s.i
  workersOk : ∀ w ∈ s.workers, w.ok
  logLen : s.log.length = sumBy Worker.writes s.workers
  wgCount : s.wg = sumBy Worker.active s.workers
  ret : ∀ r, s.status = .returned r →
    r = s.firstErr ∧ s.i = s.opts.Parallelism ∧ s.wg = 0

/-- The steps of a goroutine `w` in the state `s`: the goroutine afterwards
and the state afterwards, up to its list of goroutines. -/
inductive WorkerStep (client : Client) (s : State) (w : Worker) : Worker → State → Prop
  | observeCancel (e : error) : w.pc = .top → w.i < w.keys → s.ctx = some e →
      WorkerStep client s w { w with pc := .seterr (some e) } s
  | enterWrite : w.pc = .top → w.i < w.keys → s.ctx = none →
      WorkerStep client s w { w with pc := .write } s
  | loopExit : w.pc = .top → ¬ w.i < w.keys → s.wg ≠ 0 →
      WorkerStep client s w { w with pc := .done } { s with wg := s.wg - 1 }
  | writeFail (wr : Write) (e : error) (pos : Nat) : w.pc = .write →
      client s.log wr = some e →
      WorkerStep client s w { w with writes := w.writes + 1, pc := .seterr (some e) }
        { s with pos := pos, log := s.log ++ [wr] }
  | writeOk (wr : Write) (pos : Nat) : w.pc = .write → client s.log wr = none →
      WorkerStep client s w { w with writes := w.writes + 1, i := w.i + 1, pc := .top }
        { s with pos := pos, log := s.log ++ [wr] }
  | record (err : Option error) : w.pc = .seterr err → s.wg ≠ 0 →
      WorkerStep client s w { w with pc := .done }
        { s with firstErr := setErr s.firstErr err, wg := s.wg - 1 }

/-- The effect of an event on a state that satisfies the invariant. -/
inductive Trans (lim : Nat) (client : Client) (s : State) : Event → State → Prop
  | stutter (ev : Event) : Trans lim client s ev s
  | cancel (e : error) : s.status = .running → s.ctx = none →
      Trans lim client s (.cancel e) { s with ctx := some e }
  | spawn (k : Nat) : s.status = .running → s.i < s.opts.Parallelism →
      s.shares[s.i]? = some k →
      Trans lim client s .main
        { s with wg := s.wg + 1, workers := s.workers ++ [⟨k, 0, .top, 0⟩], i := s.i + 1 }
  | ret : s.status = .running → ¬ s.i < s.opts.Parallelism → s.wg = 0 →
      Trans lim client s .main { s with status := .returned s.firstErr }
  | work (j : Nat) (w w1 : Worker) (t : State) : s.status = .running →
      s.workers[j]? = some w → WorkerStep client s w w1 t →
      Trans lim client s (.work j) { t with workers := s.workers.set j w1 }
  | allocFail (j : Nat) (w : Worker) : s.status = .running → s.workers[j]? = some w →
      w.pc = .write → itemsFit lim s.opts.ValueLength = false →
      Trans lim client s (.work j) (s.panic .makeslice)

/-- The process has not panicked. -/
def NoPanic (s : State) : Prop := ∀ p, s.status ≠ .panicked p

/-- What holds of a goroutine while the context is not cancelled and every
write succeeds: it never has an error to record, and when it has terminated it
has issued as many writes as its share. -/
def Worker.succeeding (w : Worker) : Prop :=
  match w.pc with
  | .top => True
  | .write => True
  | .seterr _ => False
  | .done => w.writes = w.keys

/-- The invariant of the runs in which the context is not cancelled and
every write succeeds. -/
def AllOk (s : State) : Prop :=
  s.ctx = none ∧ s.firstErr = none ∧ ∀ w ∈ s.workers, w.succeeding

/-- What holds of a goroutine while the context is not cancelled and every
write fails with `e`; `fe` is the outcome slot. -/
def Worker.failing (e : error) (fe : Option error) (w : Worker) : Prop :=
  match w.pc with
  | .top => w.i = 0 ∧ w.writes = 0
  | .write => w.writes = 0
  | .seterr x => x = some e ∧ w.writes = 1 ∧ 0 < w.keys
  | .done => w.writes = (if 0 < w.keys then 1 else 0) ∧ (0 < w.keys → fe = some e)

/-- The invariant of the runs in which the context is not cancelled and
every write fails with `e`. -/
def AllFail (e : error) (s : State) : Prop :=
  s.ctx = none ∧ (s.firstErr = none ∨ s.firstErr = some e)
    ∧ ∀ w ∈ s.workers, w.failing e s.firstErr

/-- What holds of a goroutine when the context was cancelled, with error
`ce`, before `junk` started; `fe` is the outcome slot. -/
def Worker.cancelled (ce : error) (fe : Option error) (w : Worker) : Prop :=
  w.writes = 0 ∧
  match w.pc with
  | .top => w.i = 0
  | .write => False
  | .seterr x => x = some ce
  | .done => 0 < w.keys → fe = some ce

/-- The invariant of the runs in which the context was cancelled, with error
`ce`, before `junk` started. -/
def Cancelled (ce : error) (s : State) : Prop :=
  s.ctx = some ce ∧ (s.firstErr = none ∨ s.firstErr = some ce)
    ∧ ∀ w ∈ s.workers, w.cancelled ce s.firstErr

/-! ## Sample inputs -/

/-- The allocation limit of the Go runtime on 64-bit Linux. -/
def maxAlloc : Nat := 2 ^ 48

/-- A worker count that is negative as an `int`. -/
def hugeParOpts : options := ⟨"junk-", 5, 3, 2, 2 ^ 63⟩

/-- A value length that is negative as an `int`. -/
def hugeValOpts : options := ⟨"junk-", 5, 3, 2 ^ 63, 2⟩

/-- No keys, and a worker count that is negative as an `int`. -/
def zeroKeysHugeParOpts : options := ⟨"junk-", 3600, 0, 1, 2 ^ 63⟩

/-- Three keys for two workers, values of two bytes. -/
def sampleOpts : options := ⟨"junk-", 5, 3, 2, 2⟩

/-- The options that `main` builds: only the prefix and the expiration are
set (here with values of one byte and one worker, to keep runs short). -/
def zeroKeysOpts : options := ⟨"junk-", 3600, 0, 1, 1⟩

/-- An options record whose fields are all zero. -/
def zeroOpts : options := ⟨"", 0, 0, 0, 0⟩

/-- A random stream. -/
def sampleRnd : Nat → Nat := fun n => 7 * n + 3

/-- A schedule that launches two goroutines and runs them to the end. -/
def sampleSchedule : List Event :=
  [.main, .main, .work 0, .work 1, .work 0, .work 1, .work 1, .work 1, .work 0, .work 1,
   .work 0, .main]

end RedisJunk

namespace RedisJunk

/-! ## Allocation -/

theorem makeslice_neg (lim elemSize len : Nat) (h : 2 ^ 63 ≤ len) :
    makeslice lim elemSize len = false := by
  have h1 : decide (len < 2 ^ 63) = false := decide_eq_false (by omega)
  unfold makeslice
  rw [h1]
  rfl

theorem makeslice_lt (lim elemSize len : Nat) (h : makeslice lim elemSize len = true) :
    len < 2 ^ 63 ∧ elemSize * len ≤ lim := by
  simp only [makeslice, Bool.and_eq_true, decide_eq_true_eq] at h
  exact ⟨h.1.1, h.2⟩

/-! ## The partitioner -/

theorem keyShares.fill_replicate (s : Nat) :
    ∀ (n i : Nat) (rest : List Nat), rest.length = n →
      keyShares.fill s n i (List.replicate i s ++ rest) = .ok (List.replicate (i + n) s) := by
  intro n
  induction n with
  | zero =>
    intro i rest h
    have hr : rest = [] := List.length_eq_zero.mp h
    simp [keyShares.fill, hr]
  | succ n ih =>
    intro i rest h
    obtain ⟨x, rest1, rfl⟩ : ∃ x rest1, rest = x :: rest1 := by
      cases rest with
      | nil => simp at h
      | cons x rest1 => exact ⟨x, rest1, rfl⟩
    have hlen : rest1.length = n := by simpa using h
    have hset : (List.replicate i s ++ x :: rest1).set i s
        = List.replicate (i + 1) s ++ rest1 := by
      rw [List.set_append_right i s (by simp)]
      simp [List.replicate_succ']
    have hlt : i < (List.replicate i s ++ x :: rest1).length := by simp
    rw [keyShares.fill, if_pos hlt, hset, ih (i + 1) rest1 hlen]
    congr 2
    omega

theorem set_last_replicate (s x : Nat) :
    ∀ n : Nat, (List.replicate (n + 1) s).set n x = List.replicate n s ++ [x] := by
  intro n
  induction n with
  | zero => rfl
  | succ n ih =>
    rw [List.replicate_succ, List.set_cons_succ, ih]
    rfl

theorem split_le (keys workers : Nat) (hw : 1 ≤ workers) :
    keys / workers + keys % workers ≤ keys := by
  have h1 : workers * (keys / workers) + keys % workers = keys := Nat.div_add_mod keys workers
  have h2 : keys / workers ≤ workers * (keys / workers) := Nat.le_mul_of_pos_left _ hw
  omega

/-- The partitioner once its slice is granted, before the last entry is
reduced. -/
theorem keyShares_raw (lim keys workers : Nat) (hw : 1 ≤ workers)
    (hfit : makeslice lim uintBytes workers = true) :
    keyShares lim keys workers
      = .ok ((List.replicate workers (keys / workers)).set (workers - 1)
          ((keys / workers + keys % workers) % uintSize)) := by
  obtain ⟨n, rfl⟩ : ∃ n, workers = n + 1 := ⟨workers - 1, by omega⟩
  have hfill := keyShares.fill_replicate (keys / (n + 1)) (n + 1) 0 (List.replicate (n + 1) 0)
    (by simp)
  simp only [List.replicate_zero, List.nil_append, Nat.zero_add] at hfill
  have hget : (List.replicate (n + 1) (keys / (n + 1)))[n]? = some (keys / (n + 1)) := by
    simp [List.getElem?_replicate]
  have hne : ¬ (true = false) := by decide
  simp only [keyShares, Nat.add_one_ne_zero, if_false, hfit, hfill, Nat.add_sub_cancel,
    hget]
  exact if_neg hne

/-- The closed form of the partitioner on its domain. -/
theorem keyShares_eq (lim keys workers : Nat) (hk : keys < uintSize) (hw : 1 ≤ workers)
    (hfit : makeslice lim uintBytes workers = true) :
    keyShares lim keys workers
      = .ok (List.replicate (workers - 1) (keys / workers)
          ++ [keys / workers + keys % workers]) := by
  rw [keyShares_raw lim keys workers hw hfit]
  obtain ⟨n, rfl⟩ : ∃ n, workers = n + 1 := ⟨workers - 1, by omega⟩
  have hle := split_le keys (n + 1) hw
  have hmod : (keys / (n + 1) + keys % (n + 1)) % uintSize
      = keys / (n + 1) + keys % (n + 1) := Nat.mod_eq_of_lt (by omega)
  rw [hmod, Nat.add_sub_cancel, set_last_replicate]

/-- The partitioner returns a slice of `workers` entries when there is at
least one worker and the slice is granted. -/
theorem keyShares_ok (lim keys workers : Nat) (hw : 1 ≤ workers)
    (hfit : makeslice lim uintBytes workers = true) :
    ∃ shares, keyShares lim keys workers = .ok shares ∧ shares.length = workers :=
  ⟨_, keyShares_raw lim keys workers hw hfit, by simp⟩

theorem keyShares_zero (lim keys : Nat) : keyShares lim keys 0 = .error .divideByZero := by
  simp [keyShares]

theorem keyShares_noalloc (lim keys workers : Nat) (hw : 1 ≤ workers)
    (hfit : makeslice lim uintBytes workers = false) :
    keyShares lim keys workers = .error .makeslice := by
  have hne : workers ≠ 0 := by omega
  simp [keyShares, hne, hfit]

/-- With at least one worker the only panic of the partitioner is a `make` that
is not granted: the division, the modulo and the indexing cannot fail. -/
theorem keyShares_error (lim keys workers : Nat) (hw : 1 ≤ workers) (p : Panic)
    (h : keyShares lim keys workers = .error p) :
    p = .makeslice ∧ makeslice lim uintBytes workers = false := by
  cases hfit : makeslice lim uintBytes workers with
  | false =>
    rw [keyShares_noalloc lim keys workers hw hfit] at h
    injection h with h1
    exact ⟨h1.symm, rfl⟩
  | true =>
    rw [keyShares_raw lim keys workers hw hfit] at h
    cases h

theorem keyShares_sum (lim keys workers : Nat) (hk : keys < uintSize) (hw : 1 ≤ workers)
    (hfit : makeslice lim uintBytes workers = true)
    (shares : List Nat) (h : keyShares lim keys workers = .ok shares) :
    shares.length = workers ∧ shares.sum = keys := by
  rw [keyShares_eq lim keys workers hk hw hfit] at h
  injection h with h1
  subst h1
  constructor
  · simp; omega
  · simp only [List.sum_append, List.sum_replicate, List.sum_cons, List.sum_nil, smul_eq_mul,
      Nat.add_zero]
    have hd : workers * (keys / workers) + keys % workers = keys := Nat.div_add_mod keys workers
    have hm : (workers - 1) * (keys / workers) + keys / workers = workers * (keys / workers) := by
      obtain ⟨n, rfl⟩ : ∃ n, workers = n + 1 := ⟨workers - 1, by omega⟩
      simp [Nat.succ_mul]
    omega

theorem uintSum_foldl (xs : List Nat) :
    ∀ acc : Nat, acc + xs.sum < uintSize →
      xs.foldl (fun a x => (a + x) % uintSize) acc = acc + xs.sum := by
  induction xs with
  | nil => intro acc _; simp
  | cons x xs ih =>
    intro acc h
    simp only [List.sum_cons] at h
    have hx : (acc + x) % uintSize = acc + x := Nat.mod_eq_of_lt (by omega)
    simp only [List.foldl_cons, List.sum_cons, hx]
    rw [ih (acc + x) (by omega)]
    omega

/-- C1, as the code has it: for every total in the range of uint and every
workers at least 1 whose slice of workers entries is granted by make (workers
below 2^63 and 8 * workers bytes within the allocation limit), keyShares
returns a sequence of exactly workers entries, in which every entry except the
last is total / workers and the last entry is total / workers +
total % workers, the addition not wrapping; in particular, when 24 bytes are
granted, keyShares(10, 3) = [3, 3, 4] and keyShares(10, 1) = [10]. -/
theorem keyShares_entries (lim total workers : Nat) (ht : total < uintSize)
    (hw : 1 ≤ workers) (hfit : makeslice lim uintBytes workers = true) :
    (∃ shares, keyShares lim total workers = .ok shares
      ∧ shares.length = workers
      ∧ (∀ i, i < workers - 1 → shares[i]? = some (total / workers))
      ∧ shares[workers - 1]? = some (total / workers + total % workers))
    ∧ (24 ≤ lim → keyShares lim 10 3 = .ok [3, 3, 4] ∧ keyShares lim 10 1 = .ok [10]) := by
  refine ⟨⟨_, keyShares_eq lim total workers ht hw hfit, ?_, ?_, ?_⟩, ?_⟩
  · simp; omega
  · intro i hi
    rw [List.getElem?_append_left (by simpa using hi)]
    simp [List.getElem?_replicate, hi]
  · rw [List.getElem?_append_right (by simp)]
    simp
  · intro hl
    have h3 : makeslice lim uintBytes 3 = true := by
      simp only [makeslice, uintBytes, uintSize, Bool.and_eq_true, decide_eq_true_eq]
      omega
    have h1 : makeslice lim uintBytes 1 = true := by
      simp only [makeslice, uintBytes, uintSize, Bool.and_eq_true, decide_eq_true_eq]
      omega
    exact ⟨keyShares_eq lim 10 3 (by decide) (by decide) h3,
      keyShares_eq lim 10 1 (by decide) (by decide) h1⟩

theorem keyShares_entries_witness :
    (∃ shares, keyShares maxAlloc 7 4 = .ok shares
      ∧ shares.length = 4
      ∧ (∀ i, i < 4 - 1 → shares[i]? = some (7 / 4))
      ∧ shares[4 - 1]? = some (7 / 4 + 7 % 4))
    ∧ (24 ≤ maxAlloc →
        keyShares maxAlloc 10 3 = .ok [3, 3, 4] ∧ keyShares maxAlloc 10 1 = .ok [10]) :=
  keyShares_entries maxAlloc 7 4 (by decide) (by decide) (by decide)

/-- C1 fails as stated: for the worker count 2^63, which is at least 1 and in
the range of uint, make([]uint, workers) panics (the length is negative as an
int), so keyShares(10, 2^63) returns no sequence, whatever the allocation
limit. -/
theorem keyShares_entries_fails :
    1 ≤ 2 ^ 63 ∧ 2 ^ 63 < uintSize
    ∧ keyShares maxAlloc 10 (2 ^ 63) = .error .makeslice
    ∧ ¬ ∃ lim shares, keyShares lim 10 (2 ^ 63) = .ok shares := by
  refine ⟨by decide, by decide, by decide, ?_⟩
  rintro ⟨lim, shares, h⟩
  rw [keyShares_noalloc lim 10 (2 ^ 63) (by decide)
    (makeslice_neg lim uintBytes (2 ^ 63) (Nat.le_refl _))] at h
  cases h

/-- C2, as the code has it: for every total in the range of uint and every
workers at least 1 whose slice is granted by make, the entries of
keyShares(total, workers) sum exactly to total, both as natural numbers and
when added in uint arithmetic (nothing wraps around), and keyShares(0, workers)
consists of workers zeros. -/
theorem keyShares_sum_total (lim total workers : Nat) (ht : total < uintSize)
    (hw : 1 ≤ workers) (hfit : makeslice lim uintBytes workers = true) :
    (∃ shares, keyShares lim total workers = .ok shares
      ∧ shares.sum = total ∧ uintSum shares = total)
    ∧ keyShares lim 0 workers = .ok (List.replicate workers 0) := by
  constructor
  · obtain ⟨shares, hs, _⟩ := keyShares_ok lim total workers hw hfit
    have hsum := (keyShares_sum lim total workers ht hw hfit shares hs).2
    refine ⟨shares, hs, hsum, ?_⟩
    have := uintSum_foldl shares 0 (by omega)
    simpa [uintSum, hsum] using this
  · rw [keyShares_eq lim 0 workers (by decide) hw hfit]
    obtain ⟨n, rfl⟩ : ∃ n, workers = n + 1 := ⟨workers - 1, by omega⟩
    simp [List.replicate_succ']

theorem keyShares_sum_total_witness :
    (∃ shares, keyShares maxAlloc 10 3 = .ok shares
      ∧ shares.sum = 10 ∧ uintSum shares = 10)
    ∧ keyShares maxAlloc 0 3 = .ok (List.replicate 3 0) :=
  keyShares_sum_total maxAlloc 10 3 (by decide) (by decide) (by decide)

/-- C2 fails as stated: for the worker count 2^63 + 1, which is at least 1 and
in the range of uint, keyShares panics in make, so there are no entries to sum
to the total 7, and keyShares(0, 2^63 + 1) is not a sequence of zeros,
whatever the allocation limit. -/
theorem keyShares_sum_total_fails :
    1 ≤ 2 ^ 63 + 1 ∧ 2 ^ 63 + 1 < uintSize
    ∧ keyShares maxAlloc 0 (2 ^ 63 + 1) = .error .makeslice
    ∧ (¬ ∃ lim shares, keyShares lim 7 (2 ^ 63 + 1) = .ok shares)
    ∧ ¬ ∃ lim shares, keyShares lim 0 (2 ^ 63 + 1) = .ok shares := by
  refine ⟨by decide, by decide, by decide, ?_, ?_⟩
  · rintro ⟨lim, shares, h⟩
    rw [keyShares_noalloc lim 7 (2 ^ 63 + 1) (by decide)
      (makeslice_neg lim uintBytes (2 ^ 63 + 1) (by decide))] at h
    cases h
  · rintro ⟨lim, shares, h⟩
    rw [keyShares_noalloc lim 0 (2 ^ 63 + 1) (by decide)
      (makeslice_neg lim uintBytes (2 ^ 63 + 1) (by decide))] at h
    cases h

/-! ## Defaults -/

/-- C3: for every options record o (stored at a valid pointer),
setDefaultOptions returns a pointer to a record whose NumKeys is 51200 if
o.NumKeys = 0 and o.NumKeys otherwise, whose ValueLength is 10240 if
o.ValueLength = 0 and o.ValueLength otherwise, whose Parallelism is 4 if
o.Parallelism = 0 and o.Parallelism otherwise, and whose KeyPrefix and
Expiration are those of o; the record behind the input pointer, and every
other record that existed, is unchanged; and applying setDefaultOptions to the
result gives the same record again. -/
theorem setDefaultOptions_spec (h : Heap) (p : Nat) (o : options) (hp : h[p]? = some o) :
    ∃ q h1 o1, setDefaultOptions h p = some (q, h1)
      ∧ h1[q]? = some o1
      ∧ o1 = { KeyPrefix := o.KeyPrefix, Expiration := o.Expiration,
               NumKeys := if o.NumKeys = 0 then 51200 else o.NumKeys,
               ValueLength := if o.ValueLength = 0 then 10240 else o.ValueLength,
               Parallelism := if o.Parallelism = 0 then 4 else o.Parallelism }
      ∧ h1[p]? = some o
      ∧ (∀ a, a < h.length → h1[a]? = h[a]?)
      ∧ ∃ q2 h2, setDefaultOptions h1 q = some (q2, h2) ∧ h2[q2]? = some o1 := by
  have hlt : p < h.length := by
    rcases Nat.lt_or_ge p h.length with hlt | hge
    · exact hlt
    · rw [List.getElem?_eq_none hge] at hp
      cases hp
  obtain ⟨kp, ex, nk, vl, pl⟩ := o
  have key : ∀ (g : Heap) (a : Nat) (x : options), g[a]? = some x →
      setDefaultOptions g a = some (g.length, g ++ [
        { KeyPrefix := x.KeyPrefix, Expiration := x.Expiration,
          NumKeys := if x.NumKeys = 0 then 51200 else x.NumKeys,
          ValueLength := if x.ValueLength = 0 then 10240 else x.ValueLength,
          Parallelism := if x.Parallelism = 0 then 4 else x.Parallelism }]) := by
    intro g a x hx
    obtain ⟨kp, ex, nk, vl, pl⟩ := x
    simp only [setDefaultOptions, hx]
    by_cases h1 : nk = 0 <;> by_cases h2 : vl = 0 <;> by_cases h3 : pl = 0 <;> simp [h1, h2, h3]
  have hq : ∀ (g : Heap) (x : options), (g ++ [x])[g.length]? = some x := by
    intro g x
    rw [List.getElem?_append_right (Nat.le_refl _)]
    simp
  refine ⟨_, _, _, key h p _ hp, hq _ _, rfl, ?_, ?_, ?_⟩
  · rw [List.getElem?_append_left hlt]; exact hp
  · intro a ha
    rw [List.getElem?_append_left ha]
  · refine ⟨_, _, key _ _ _ (hq _ _), ?_⟩
    rw [hq]
    simp only
    by_cases h1 : nk = 0 <;> by_cases h2 : vl = 0 <;> by_cases h3 : pl = 0 <;> simp [h1, h2, h3]

theorem setDefaultOptions_spec_witness :
    ∃ q h1 o1, setDefaultOptions [⟨"junk-", 3600, 0, 7, 0⟩] 0 = some (q, h1)
      ∧ h1[q]? = some o1
      ∧ o1 = { KeyPrefix := "junk-", Expiration := 3600,
               NumKeys := if (0 : Nat) = 0 then 51200 else 0,
               ValueLength := if (7 : Nat) = 0 then 10240 else 7,
               Parallelism := if (0 : Nat) = 0 then 4 else 0 }
      ∧ h1[0]? = some ⟨"junk-", 3600, 0, 7, 0⟩
      ∧ (∀ a, a < [(⟨"junk-", 3600, 0, 7, 0⟩ : options)].length →
          h1[a]? = [(⟨"junk-", 3600, 0, 7, 0⟩ : options)][a]?)
      ∧ ∃ q2 h2, setDefaultOptions h1 q = some (q2, h2) ∧ h2[q2]? = some o1 :=
  setDefaultOptions_spec [⟨"junk-", 3600, 0, 7, 0⟩] 0 ⟨"junk-", 3600, 0, 7, 0⟩ rfl

/-! ## The run outcome slot -/

theorem setErrs_some (f : error) (errs : List (Option error)) :
    setErrs (some f) errs = some f := by
  induction errs with
  | nil => rfl
  | cons e errs ih =>
    cases e with
    | none => simpa [setErrs, setErr] using ih
    | some e => simpa [setErrs, setErr] using ih

theorem setErrs_nils (pre : List (Option error)) (hpre : ∀ x ∈ pre, x = none)
    (slot : Option error) (rest : List (Option error)) :
    setErrs slot (pre ++ rest) = setErrs slot rest := by
  induction pre with
  | nil => rfl
  | cons x pre ih =>
    have hx : x = none := hpre x (List.mem_cons_self _ _)
    subst hx
    have := ih (fun y hy => hpre y (List.mem_cons_of_mem _ hy))
    simpa [setErrs, setErr] using this

/-- C8: first error wins. Starting from an empty slot, after the calls
setErr(e1), ..., setErr(en) the slot holds the first non-nil ei, and nil if
every ei is nil; once the slot is non-nil, every later call of setErr leaves
it unchanged. -/
theorem setErr_first_wins (errs : List (Option error)) :
    setErrs none errs = errs.findSome? id
    ∧ (∀ pre e post, errs = pre ++ some e :: post → (∀ x ∈ pre, x = none) →
        setErrs none errs = some e)
    ∧ ((∀ x ∈ errs, x = none) → setErrs none errs = none)
    ∧ (∀ (f : error) (err : Option error), setErr (some f) err = some f)
    ∧ (∀ (f : error) (later : List (Option error)), setErrs (some f) later = some f) := by
  refine ⟨?_, ?_, ?_, ?_, setErrs_some⟩
  · induction errs with
    | nil => rfl
    | cons e errs ih =>
      cases e with
      | none => simpa [setErrs, setErr] using ih
      | some e =>
        have := setErrs_some e errs
        simpa [setErrs, setErr] using this
  · intro pre e post h hpre
    rw [h, setErrs_nils pre hpre]
    have := setErrs_some e post
    simpa [setErrs, setErr] using this
  · intro hall
    have := setErrs_nils errs hall none []
    simpa [setErrs] using this
  · intro f err
    cases err <;> rfl

/-! ## Key and value generation -/

theorem alphabet_length : alphabet.length = 62 := by decide

theorem alphabet_index (r : Nat) :
    ∃ c, alphabet.data[r % alphabet.length]? = some c ∧ c ∈ alphabet.data := by
  have hlt : r % alphabet.length < alphabet.data.length := by
    have : alphabet.data.length = 62 := alphabet_length
    rw [alphabet_length, this]
    exact Nat.mod_lt _ (by decide)
  exact ⟨alphabet.data[r % alphabet.length], List.getElem?_eq_getElem hlt,
    List.getElem_mem hlt⟩

theorem randomString.loop_spec (rnd : Nat → Nat) :
    ∀ (n i pos : Nat) (pre rest : List Char), pre.length = i → rest.length = n →
      (∀ c ∈ pre, c ∈ alphabet.data) →
      ∃ out, randomString.loop rnd n i pos (pre ++ rest) = .ok (out, pos + n)
        ∧ out.length = i + n ∧ ∀ c ∈ out, c ∈ alphabet.data := by
  intro n
  induction n with
  | zero =>
    intro i pos pre rest hi hn hpre
    have hr : rest = [] := List.length_eq_zero.mp hn
    subst hr
    exact ⟨pre, by simp [randomString.loop], by simpa using hi, by simpa using hpre⟩
  | succ n ih =>
    intro i pos pre rest hi hn hpre
    obtain ⟨x, rest1, rfl⟩ : ∃ x rest1, rest = x :: rest1 := by
      cases rest with
      | nil => simp at hn
      | cons x rest1 => exact ⟨x, rest1, rfl⟩
    have hlen : rest1.length = n := by simpa using hn
    obtain ⟨c, hc, hmem⟩ := alphabet_index (rnd pos)
    have hset : (pre ++ x :: rest1).set i c = (pre ++ [c]) ++ rest1 := by
      rw [List.set_append_right i c (by omega)]
      simp [hi]
    have hlt : i < (pre ++ x :: rest1).length := by simp; omega
    have hne : ¬ alphabet.length = 0 := by rw [alphabet_length]; decide
    obtain ⟨out, hout, hl, hall⟩ := ih (i + 1) (pos + 1) (pre ++ [c]) rest1 (by simp [hi]) hlen
      (by
        intro d hd
        rcases List.mem_append.mp hd with hd | hd
        · exact hpre d hd
        · rw [List.mem_singleton.mp hd]; exact hmem)
    refine ⟨out, ?_, by omega, hall⟩
    rw [randomString.loop, if_neg hne, hc]
    simp only [if_pos hlt, hset, hout]
    rw [show pos + 1 + n = pos + (n + 1) by omega]

theorem randomString_spec (lim : Nat) (rnd : Nat → Nat) (pos length : Nat)
    (hfit : makeslice lim 1 length = true) :
    ∃ s, randomString lim rnd pos length = .ok (s, pos + length)
      ∧ s.length = length ∧ ∀ c ∈ s.data, c ∈ alphabet.data := by
  obtain ⟨out, hout, hl, hall⟩ := randomString.loop_spec rnd length 0 pos []
    (List.replicate length (Char.ofNat 0)) rfl (by simp) (by simp)
  refine ⟨String.mk out, ?_, ?_, hall⟩
  · simp only [List.nil_append] at hout
    have hne : ¬ (true = false) := by decide
    simp only [randomString, hfit, hout]
    exact if_neg hne
  · simpa using hl

theorem randomString_noalloc (lim : Nat) (rnd : Nat → Nat) (pos length : Nat)
    (hfit : makeslice lim 1 length = false) :
    randomString lim rnd pos length = .error .makeslice := by
  simp [randomString, hfit]

/-- C7, as the code has it: for every prefix, every length n and every
sequence of non-negative integers produced by the random source, when make
grants the 32 bytes of the suffix, generateKey(prefix) is the prefix followed
by a suffix of exactly 32 characters, and when make grants n bytes (n below
2^63 and within the allocation limit), generateValue(n) has exactly n
characters; every generated character is one of the characters of the
alphabet, which are 62 distinct characters, each a letter a-z or A-Z or a
digit 0-9. -/
theorem generated_shape (lim : Nat) (rnd : Nat → Nat) (pos : Nat) (pfx : String) (n : Nat)
    (hk : makeslice lim 1 32 = true) (hn : makeslice lim 1 n = true) :
    (∃ suffix pos1, generateKey lim rnd pos pfx = .ok (pfx ++ suffix, pos1)
      ∧ suffix.length = 32 ∧ ∀ c ∈ suffix.data, c ∈ alphabet.data)
    ∧ (∃ v pos1, generateValue lim rnd pos n = .ok (v, pos1)
      ∧ v.length = n ∧ ∀ c ∈ v.data, c ∈ alphabet.data)
    ∧ alphabet.data.length = 62
    ∧ alphabet.data.Nodup
    ∧ ∀ c ∈ alphabet.data, c.isAlphanum = true := by
  refine ⟨?_, ?_, by decide, by decide, by decide⟩
  · obtain ⟨s, hs, hl, hall⟩ := randomString_spec lim rnd pos 32 hk
    exact ⟨s, pos + 32, by simp only [generateKey, hs], hl, hall⟩
  · obtain ⟨s, hs, hl, hall⟩ := randomString_spec lim rnd pos n hn
    exact ⟨s, pos + n, by simp only [generateValue, hs], hl, hall⟩

theorem generated_shape_witness :
    (∃ suffix pos1, generateKey maxAlloc sampleRnd 0 "junk-" = .ok ("junk-" ++ suffix, pos1)
      ∧ suffix.length = 32 ∧ ∀ c ∈ suffix.data, c ∈ alphabet.data)
    ∧ (∃ v pos1, generateValue maxAlloc sampleRnd 0 10240 = .ok (v, pos1)
      ∧ v.length = 10240 ∧ ∀ c ∈ v.data, c ∈ alphabet.data) := by
  have h := generated_shape maxAlloc sampleRnd 0 "junk-" 10240 (by decide) (by decide)
  exact ⟨h.1, h.2.1⟩

/-- C7 fails as stated: for the length 2^63, in the range of uint,
make([]byte, length) panics (the length is negative as an int), so
generateValue(2^63) returns no string, whatever the allocation limit and the
random source. -/
theorem generated_shape_fails :
    2 ^ 63 < uintSize
    ∧ generateValue maxAlloc sampleRnd 0 (2 ^ 63) = .error .makeslice
    ∧ ¬ ∃ lim rnd pos v pos1, generateValue lim rnd pos (2 ^ 63) = .ok (v, pos1) := by
  refine ⟨by decide, by decide, ?_⟩
  rintro ⟨lim, rnd, pos, v, pos1, h⟩
  rw [generateValue, randomString_noalloc lim rnd pos (2 ^ 63)
    (makeslice_neg lim 1 (2 ^ 63) (Nat.le_refl _))] at h
  cases h

/-! ## Runs of the coordinator: general facts -/

theorem sumBy_set (f : Worker → Nat) (w1 : Worker) :
    ∀ (ws : List Worker) (j : Nat) (w : Worker), ws[j]? = some w →
      sumBy f (ws.set j w1) + f w = sumBy f ws + f w1 := by
  intro ws
  induction ws with
  | nil => intro j w h; simp at h
  | cons x ws ih =>
    intro j w h
    cases j with
    | zero =>
      simp only [List.getElem?_cons_zero, Option.some.injEq] at h
      subst h
      simp only [sumBy, List.set_cons_zero, List.map_cons, List.sum_cons]
      omega
    | succ j =>
      simp only [List.getElem?_cons_succ] at h
      have := ih j w h
      simp only [sumBy, List.set_cons_succ, List.map_cons, List.sum_cons] at this ⊢
      omega

theorem le_sumBy (f : Worker → Nat) :
    ∀ (ws : List Worker) (j : Nat) (w : Worker), ws[j]? = some w → f w ≤ sumBy f ws := by
  intro ws
  induction ws with
  | nil => intro j w h; simp at h
  | cons x ws ih =>
    intro j w h
    cases j with
    | zero =>
      simp only [List.getElem?_cons_zero, Option.some.injEq] at h
      subst h
      simp [sumBy]
    | succ j =>
      simp only [List.getElem?_cons_succ] at h
      have := ih j w h
      simp only [sumBy, List.map_cons, List.sum_cons] at this ⊢
      omega

theorem sumBy_pos (f : Worker → Nat) :
    ∀ ws : List Worker, 0 < sumBy f ws →
      ∃ (j : Nat) (w : Worker), ws[j]? = some w ∧ 0 < f w := by
  intro ws
  induction ws with
  | nil => intro h; simp [sumBy] at h
  | cons x ws ih =>
    intro h
    by_cases hx : 0 < f x
    · exact ⟨0, x, by simp, hx⟩
    · have h1 : 0 < sumBy f ws := by
        simp only [sumBy, List.map_cons, List.sum_cons] at h ⊢
        omega
      obtain ⟨j, w, hj, hw⟩ := ih h1
      exact ⟨j + 1, w, by simpa using hj, hw⟩

theorem sumBy_le (f g : Worker → Nat) :
    ∀ ws : List Worker, (∀ w ∈ ws, f w ≤ g w) → sumBy f ws ≤ sumBy g ws := by
  intro ws
  induction ws with
  | nil => intro _; simp [sumBy]
  | cons x ws ih =>
    intro h
    have h1 := h x (List.mem_cons_self _ _)
    have h2 := ih (fun w hw => h w (List.mem_cons_of_mem _ hw))
    simp only [sumBy, List.map_cons, List.sum_cons] at h2 ⊢
    omega

theorem sumBy_eq (f g : Worker → Nat) :
    ∀ ws : List Worker, (∀ w ∈ ws, f w = g w) → sumBy f ws = sumBy g ws := by
  intro ws h
  exact Nat.le_antisymm (sumBy_le f g ws (fun w hw => Nat.le_of_eq (h w hw)))
    (sumBy_le g f ws (fun w hw => Nat.le_of_eq (h w hw).symm))

theorem forall_set (P : Worker → Prop) (ws : List Worker) (j : Nat) (w1 : Worker)
    (h : ∀ w ∈ ws, P w) (h1 : P w1) : ∀ w ∈ ws.set j w1, P w := by
  intro w hw
  rcases List.mem_or_eq_of_mem_set hw with hw | hw
  · exact h w hw
  · rw [hw]; exact h1

theorem mem_of_getElem? (ws : List Worker) (j : Nat) (w : Worker) (h : ws[j]? = some w) :
    w ∈ ws := by
  obtain ⟨hlt, rfl⟩ := List.getElem?_eq_some.mp h
  exact List.getElem_mem hlt

theorem map_keys_set (ws : List Worker) (j : Nat) (w w1 : Worker) (h : ws[j]? = some w)
    (hk : w1.keys = w.keys) : (ws.set j w1).map Worker.keys = ws.map Worker.keys := by
  obtain ⟨hlt, hget⟩ := List.getElem?_eq_some.mp h
  rw [List.map_set, hk]
  apply List.ext_getElem?
  intro n
  rw [List.getElem?_set]
  by_cases hjn : j = n
  · subst hjn
    simp [hlt, hget]
  · rw [if_neg hjn]

theorem generate_ok (lim : Nat) (rnd : Nat → Nat) (pos n : Nat) (pfx : String)
    (hfit : itemsFit lim n = true) :
    ∃ k pos1 v pos2, generateKey lim rnd pos pfx = .ok (k, pos1)
      ∧ generateValue lim rnd pos1 n = .ok (v, pos2) := by
  simp only [itemsFit, Bool.and_eq_true] at hfit
  obtain ⟨s, hs, _, _⟩ := randomString_spec lim rnd pos 32 hfit.1
  obtain ⟨v, hv, _, _⟩ := randomString_spec lim rnd (pos + 32) n hfit.2
  exact ⟨pfx ++ s, pos + 32, v, pos + 32 + n, by simp only [generateKey, hs],
    by simp only [generateValue, hv]⟩

theorem generate_fail (lim : Nat) (rnd : Nat → Nat) (pos n : Nat) (pfx : String)
    (hfit : itemsFit lim n = false) :
    generateKey lim rnd pos pfx = .error .makeslice
    ∨ ∃ k pos1, generateKey lim rnd pos pfx = .ok (k, pos1)
        ∧ generateValue lim rnd pos1 n = .error .makeslice := by
  cases hk : makeslice lim 1 32 with
  | false =>
    left
    simp only [generateKey, randomString_noalloc lim rnd pos 32 hk]
  | true =>
    right
    have hn : makeslice lim 1 n = false := by
      simpa [itemsFit, hk] using hfit
    obtain ⟨s, hs, _, _⟩ := randomString_spec lim rnd pos 32 hk
    exact ⟨pfx ++ s, pos + 32, by simp only [generateKey, hs],
      by simp only [generateValue, randomString_noalloc lim rnd (pos + 32) n hn]⟩

theorem active_pos (w : Worker) (h : w.pc ≠ .done) : w.active = 1 := by
  unfold Worker.active
  split
  · rename_i hpc; exact absurd hpc h
  · rfl

/-- A step of a goroutine that has not terminated is one of the steps of
`WorkerStep`, or the panic of a `make` that is not granted before a write. -/
theorem workStep_sound (lim : Nat) (client : Client) (rnd : Nat → Nat) (j : Nat) (w : Worker)
    (s : State) (hinv : Inv s) (hw : s.workers[j]? = some w) (hpc : w.pc ≠ .done) :
    (∃ w1 t, WorkerStep client s w w1 t
      ∧ workStep lim client rnd j w s = { t with workers := s.workers.set j w1 })
    ∨ (w.pc = .write ∧ itemsFit lim s.opts.ValueLength = false
      ∧ workStep lim client rnd j w s = s.panic .makeslice) := by
  have hwg : s.wg ≠ 0 := by
    have h1 := le_sumBy Worker.active s.workers j w hw
    rw [active_pos w hpc] at h1
    rw [hinv.wgCount]
    omega
  unfold workStep
  split
  · rename_i htop
    left
    by_cases hlt : w.i < w.keys
    · rw [if_pos hlt]
      rcases Option.eq_none_or_eq_some s.ctx with hctx | ⟨e, hctx⟩
      · refine ⟨_, _, .enterWrite htop hlt hctx, ?_⟩
        simp [hctx]
      · refine ⟨_, _, .observeCancel e htop hlt hctx, ?_⟩
        simp [hctx]
    · rw [if_neg hlt]
      exact ⟨_, _, .loopExit htop hlt hwg, by simp [finish, hwg]⟩
  · rename_i hwr
    cases hfit : itemsFit lim s.opts.ValueLength with
    | true =>
      left
      obtain ⟨k, pos1, v, pos2, hk, hv⟩ :=
        generate_ok lim rnd s.pos s.opts.ValueLength s.opts.KeyPrefix hfit
      simp only [hk, hv]
      cases hc : client s.log ⟨k, v, s.opts.Expiration⟩ with
      | none => exact ⟨_, _, .writeOk ⟨k, v, s.opts.Expiration⟩ pos2 hwr hc, rfl⟩
      | some e => exact ⟨_, _, .writeFail ⟨k, v, s.opts.Expiration⟩ e pos2 hwr hc, rfl⟩
    | false =>
      right
      refine ⟨hwr, rfl, ?_⟩
      rcases generate_fail lim rnd s.pos s.opts.ValueLength s.opts.KeyPrefix hfit with
        hk | ⟨k, pos1, hk, hv⟩
      · simp only [hk]
      · simp only [hk, hv]
  · rename_i err herr
    left
    exact ⟨_, _, .record err herr hwg, by simp [finish, hwg]⟩
  · rename_i hdone
    exact absurd hdone hpc

/-- Every event acts on a state that satisfies the invariant as `Trans` says. -/
theorem step_sound (lim : Nat) (client : Client) (rnd : Nat → Nat) (ev : Event) (s : State)
    (hinv : Inv s) : Trans lim client s ev (step lim client rnd ev s) := by
  unfold step
  split
  · rename_i hrun
    cases ev with
    | main =>
      simp only [mainStep]
      by_cases hlt : s.i < s.opts.Parallelism
      · rw [if_pos hlt]
        have hlt2 : s.i < s.shares.length := by rw [hinv.sharesLen]; exact hlt
        have hget : s.shares[s.i]? = some s.shares[s.i] := List.getElem?_eq_getElem hlt2
        simp only [hget]
        exact .spawn _ hrun hlt hget
      · rw [if_neg hlt]
        by_cases hwg : s.wg = 0
        · rw [if_pos hwg]; exact .ret hrun hlt hwg
        · rw [if_neg hwg]; exact .stutter _
    | work j =>
      simp only
      cases hw : s.workers[j]? with
      | none => exact .stutter _
      | some w =>
        simp only
        by_cases hpc : w.pc = .done
        · have : workStep lim client rnd j w s = s := by simp [workStep, hpc]
          rw [this]; exact .stutter _
        · rcases workStep_sound lim client rnd j w s hinv hw hpc with
            ⟨w1, t, hstep, heq⟩ | ⟨hwr, hfit, heq⟩
          · rw [heq]
            exact .work j w w1 t hrun hw hstep
          · rw [heq]
            exact .allocFail j w hrun hw hwr hfit
    | cancel e =>
      simp only
      rcases Option.eq_none_or_eq_some s.ctx with hctx | ⟨c, hctx⟩
      · have : (match s.ctx with
            | none => { s with ctx := some e }
            | some _ => s) = { s with ctx := some e } := by simp [hctx]
        rw [this]
        exact .cancel e hrun hctx
      · have : (match s.ctx with
            | none => { s with ctx := some e }
            | some _ => s) = s := by simp [hctx]
        rw [this]
        exact .stutter _
  · exact .stutter _

/-- What every step of a goroutine leaves unchanged, and how it moves the
counters. -/
theorem workerStep_frame (client : Client) (s t : State) (w w1 : Worker) (hok : w.ok)
    (hstep : WorkerStep client s w w1 t) :
    w1.ok ∧ w1.keys = w.keys ∧ t.status = s.status ∧ t.opts = s.opts ∧ t.shares = s.shares
      ∧ t.i = s.i ∧ t.ctx = s.ctx
      ∧ t.log.length + w.writes = s.log.length + w1.writes
      ∧ t.wg + w.active = s.wg + w1.active
      ∧ w1.rem < w.rem := by
  cases hstep with
  | observeCancel e hpc hlt hctx =>
    simp only [Worker.ok, hpc] at hok
    refine ⟨?_, rfl, rfl, rfl, rfl, rfl, rfl, rfl, ?_, ?_⟩
    · simp only [Worker.ok]; omega
    · simp [Worker.active, hpc]
    · simp only [Worker.rem, hpc]; omega
  | enterWrite hpc hlt hctx =>
    simp only [Worker.ok, hpc] at hok
    refine ⟨?_, rfl, rfl, rfl, rfl, rfl, rfl, rfl, ?_, ?_⟩
    · simp only [Worker.ok]; omega
    · simp [Worker.active, hpc]
    · simp only [Worker.rem, hpc]; omega
  | loopExit hpc hlt hwg =>
    simp only [Worker.ok, hpc] at hok
    refine ⟨?_, rfl, rfl, rfl, rfl, rfl, rfl, rfl, ?_, ?_⟩
    · simp only [Worker.ok]; omega
    · simp only [Worker.active, hpc]; omega
    · simp only [Worker.rem, hpc]; omega
  | writeFail wr e pos hpc hc =>
    simp only [Worker.ok, hpc] at hok
    refine ⟨?_, rfl, rfl, rfl, rfl, rfl, rfl, ?_, ?_, ?_⟩
    · simp only [Worker.ok]; omega
    · simp only [List.length_append, List.length_singleton]; omega
    · simp [Worker.active, hpc]
    · simp only [Worker.rem, hpc]; omega
  | writeOk wr pos hpc hc =>
    simp only [Worker.ok, hpc] at hok
    refine ⟨?_, rfl, rfl, rfl, rfl, rfl, rfl, ?_, ?_, ?_⟩
    · simp only [Worker.ok]; omega
    · simp only [List.length_append, List.length_singleton]; omega
    · simp [Worker.active, hpc]
    · simp only [Worker.rem, hpc]; omega
  | record err hpc hwg =>
    simp only [Worker.ok, hpc] at hok
    refine ⟨?_, rfl, rfl, rfl, rfl, rfl, rfl, rfl, ?_, ?_⟩
    · simp only [Worker.ok]; omega
    · simp only [Worker.active, hpc]; omega
    · simp only [Worker.rem, hpc]; omega

/-- The invariant is kept by every transition. -/
theorem trans_inv (lim : Nat) (client : Client) (s s1 : State) (ev : Event) (hinv : Inv s)
    (htr : Trans lim client s ev s1) : Inv s1 := by
  cases htr with
  | stutter => exact hinv
  | cancel e hrun hctx =>
    exact ⟨hinv.panicCause, hinv.sharesLen, hinv.launched, hinv.keys, hinv.workersOk,
      hinv.logLen, hinv.wgCount, hinv.ret⟩
  | spawn k hrun hlt hget =>
    refine ⟨hinv.panicCause, hinv.sharesLen, ?_, ?_, ?_, ?_, ?_, ?_⟩
    · show s.i + 1 ≤ s.opts.Parallelism
      omega
    · show (s.workers ++ [(⟨k, 0, .top, 0⟩ : Worker)]).map Worker.keys
        = s.shares.take (s.i + 1)
      rw [List.take_succ, hget, List.map_append, hinv.keys]
      rfl
    · intro w hw
      rcases List.mem_append.mp hw with hw | hw
      · exact hinv.workersOk w hw
      · rw [List.mem_singleton.mp hw]
        simp [Worker.ok]
    · show s.log.length = sumBy Worker.writes (s.workers ++ [(⟨k, 0, .top, 0⟩ : Worker)])
      rw [hinv.logLen]
      simp [sumBy]
    · show s.wg + 1 = sumBy Worker.active (s.workers ++ [(⟨k, 0, .top, 0⟩ : Worker)])
      rw [hinv.wgCount]
      simp [sumBy, Worker.active]
    · intro r hr
      have : s.status = .returned r := hr
      rw [hrun] at this
      cases this
  | ret hrun hlt hwg =>
    refine ⟨?_, hinv.sharesLen, hinv.launched, hinv.keys, hinv.workersOk, hinv.logLen,
      hinv.wgCount, ?_⟩
    · intro p hp
      have : Status.returned s.firstErr = Status.panicked p := hp
      cases this
    · intro r hr
      have h1 : Status.returned s.firstErr = Status.returned r := hr
      have h2 : s.firstErr = r := by injection h1
      have h3 := hinv.launched
      exact ⟨h2.symm, by show s.i = s.opts.Parallelism; omega, hwg⟩
  | work j w w1 t hrun hw hstep =>
    have hmem := mem_of_getElem? s.workers j w hw
    obtain ⟨hok1, hkeys, hst, hopts, hshares, hi, _, hlog, hwgc, _⟩ :=
      workerStep_frame client s t w w1 (hinv.workersOk w hmem) hstep
    refine ⟨?_, ?_, ?_, ?_, ?_, ?_, ?_, ?_⟩
    · show ∀ p, t.status = .panicked p → p = .makeslice
      rw [hst]; exact hinv.panicCause
    · show t.shares.length = t.opts.Parallelism
      rw [hshares, hopts]; exact hinv.sharesLen
    · show t.i ≤ t.opts.Parallelism
      rw [hi, hopts]; exact hinv.launched
    · show (s.workers.set j w1).map Worker.keys = t.shares.take t.i
      rw [map_keys_set s.workers j w w1 hw hkeys, hshares, hi]; exact hinv.keys
    · exact forall_set Worker.ok s.workers j w1 hinv.workersOk hok1
    · show t.log.length = sumBy Worker.writes (s.workers.set j w1)
      have h1 := sumBy_set Worker.writes w1 s.workers j w hw
      have h2 := hinv.logLen
      omega
    · show t.wg = sumBy Worker.active (s.workers.set j w1)
      have h1 := sumBy_set Worker.active w1 s.workers j w hw
      have h2 := hinv.wgCount
      omega
    · intro r hr
      have : t.status = .returned r := hr
      rw [hst, hrun] at this
      cases this
  | allocFail j w hrun hw hwr hfit =>
    refine ⟨?_, hinv.sharesLen, hinv.launched, hinv.keys, hinv.workersOk, hinv.logLen,
      hinv.wgCount, ?_⟩
    · intro p hp
      have : Status.panicked .makeslice = Status.panicked p := hp
      injection this with h1
      exact h1.symm
    · intro r hr
      have : Status.panicked .makeslice = Status.returned r := hr
      cases this

theorem step_inv (lim : Nat) (client : Client) (rnd : Nat → Nat) (ev : Event) (s : State)
    (hinv : Inv s) : Inv (step lim client rnd ev s) :=
  trans_inv lim client s _ ev hinv (step_sound lim client rnd ev s hinv)

/-- A property kept by every event of a schedule holds at the end of it. -/
theorem exec_induction (lim : Nat) (client : Client) (rnd : Nat → Nat) (P : State → Prop) :
    ∀ (sch : List Event) (s : State),
      (∀ ev ∈ sch, ∀ s1, P s1 → P (step lim client rnd ev s1)) → P s →
      P (exec lim client rnd sch s) := by
  intro sch
  induction sch with
  | nil => intro s _ h; exact h
  | cons ev sch ih =>
    intro s hstep h
    show P (exec lim client rnd sch (step lim client rnd ev s))
    exact ih _ (fun e he => hstep e (List.mem_cons_of_mem _ he))
      (hstep ev (List.mem_cons_self _ _) s h)

theorem exec_inv (lim : Nat) (client : Client) (rnd : Nat → Nat) (sch : List Event)
    (s : State) (hinv : Inv s) : Inv (exec lim client rnd sch s) :=
  exec_induction lim client rnd Inv sch s (fun ev _ s1 h => step_inv lim client rnd ev s1 h)
    hinv

theorem exec_append (lim : Nat) (client : Client) (rnd : Nat → Nat) (sch1 sch2 : List Event)
    (s : State) :
    exec lim client rnd (sch1 ++ sch2) s
      = exec lim client rnd sch2 (exec lim client rnd sch1 s) := by
  simp [exec, List.foldl_append]

/-- Nothing happens once `junk` has returned or the process has panicked. -/
theorem exec_halted (lim : Nat) (client : Client) (rnd : Nat → Nat) (sch : List Event)
    (s : State) (h : s.status ≠ .running) : exec lim client rnd sch s = s := by
  induction sch with
  | nil => rfl
  | cons ev sch ih =>
    have hstep : step lim client rnd ev s = s := by
      unfold step
      split
      · rename_i hrun; exact absurd hrun h
      · rfl
    show exec lim client rnd sch (step lim client rnd ev s) = s
    rw [hstep, ih]

/-! ## The entry of `junk` -/

theorem setDefaultOptions_eq (h : Heap) (p : Nat) (o : options) (hp : h[p]? = some o) :
    setDefaultOptions h p = some (h.length, h ++ [o.effective]) := by
  obtain ⟨kp, ex, nk, vl, pl⟩ := o
  simp only [setDefaultOptions, hp, options.effective]
  by_cases h1 : nk = 0 <;> by_cases h2 : vl = 0 <;> by_cases h3 : pl = 0 <;> simp [h1, h2, h3]

theorem effective_pos (o : options) :
    1 ≤ o.effective.NumKeys ∧ 1 ≤ o.effective.ValueLength ∧ 1 ≤ o.effective.Parallelism := by
  simp only [options.effective]
  refine ⟨?_, ?_, ?_⟩ <;> split <;> omega

/-- The state at the entry of `junk` when the slice of shares is granted: no
panic, the defaults applied, the shares computed. -/
theorem junk_init_eq (lim : Nat) (ctx : Option error) (h : Heap) (p : Nat) (o : options)
    (hp : h[p]? = some o) (hfit : makeslice lim uintBytes o.effective.Parallelism = true) :
    ∃ shares, keyShares lim o.effective.NumKeys o.effective.Parallelism = .ok shares
      ∧ shares.length = o.effective.Parallelism
      ∧ junk.init lim ctx h p =
        { opts := o.effective, shares := shares, ctx := ctx, i := 0, workers := [], wg := 0,
          firstErr := none, log := [], pos := 0, status := .running } := by
  obtain ⟨shares, hs, hl⟩ :=
    keyShares_ok lim o.effective.NumKeys o.effective.Parallelism (effective_pos o).2.2 hfit
  refine ⟨shares, hs, hl, ?_⟩
  have hq : (h ++ [o.effective])[h.length]? = some o.effective := by
    rw [List.getElem?_append_right (Nat.le_refl _)]
    simp
  simp only [junk.init, setDefaultOptions_eq h p o hp, hq, hs]

/-- The state at the entry of `junk` when the slice of shares is not granted:
the process has panicked in `make`. -/
theorem junk_init_noalloc (lim : Nat) (ctx : Option error) (h : Heap) (p : Nat) (o : options)
    (hp : h[p]? = some o) (hfit : makeslice lim uintBytes o.effective.Parallelism = false) :
    (junk.init lim ctx h p).status = .panicked .makeslice
      ∧ (junk.init lim ctx h p).opts = o.effective := by
  have hs := keyShares_noalloc lim o.effective.NumKeys o.effective.Parallelism
    (effective_pos o).2.2 hfit
  have hq : (h ++ [o.effective])[h.length]? = some o.effective := by
    rw [List.getElem?_append_right (Nat.le_refl _)]
    simp
  have heq : junk.init lim ctx h p =
      { opts := o.effective, shares := [], ctx := ctx, i := 0, workers := [], wg := 0,
        firstErr := none, log := [], pos := 0, status := .panicked .makeslice } := by
    simp only [junk.init, setDefaultOptions_eq h p o hp, hq, hs, State.panic]
  rw [heq]
  exact ⟨rfl, rfl⟩

theorem junk_init_inv (lim : Nat) (ctx : Option error) (h : Heap) (p : Nat) (o : options)
    (hp : h[p]? = some o) (hfit : makeslice lim uintBytes o.effective.Parallelism = true) :
    Inv (junk.init lim ctx h p) := by
  obtain ⟨shares, hs, hl, heq⟩ := junk_init_eq lim ctx h p o hp hfit
  rw [heq]
  exact ⟨by simp, hl, Nat.zero_le _, by simp, by simp, by simp [sumBy], by simp [sumBy],
    by simp⟩

/-! ## Termination -/

theorem step_main_spawn (lim : Nat) (client : Client) (rnd : Nat → Nat) (s : State) (k : Nat)
    (hrun : s.status = .running) (hlt : s.i < s.opts.Parallelism)
    (hget : s.shares[s.i]? = some k) :
    step lim client rnd .main s =
      { s with wg := s.wg + 1, workers := s.workers ++ [⟨k, 0, .top, 0⟩], i := s.i + 1 } := by
  simp [step, hrun, mainStep, hlt, hget]

theorem step_main_return (lim : Nat) (client : Client) (rnd : Nat → Nat) (s : State)
    (hrun : s.status = .running) (hlt : ¬ s.i < s.opts.Parallelism) (hwg : s.wg = 0) :
    step lim client rnd .main s = { s with status := .returned s.firstErr } := by
  simp [step, hrun, mainStep, hlt, hwg]

theorem step_work (lim : Nat) (client : Client) (rnd : Nat → Nat) (s : State) (j : Nat)
    (w : Worker) (hrun : s.status = .running) (hw : s.workers[j]? = some w) :
    step lim client rnd (.work j) s = workStep lim client rnd j w s := by
  simp [step, hrun, hw]

/-- While `junk` is running, some goroutine can take a step that lowers the
measure. -/
theorem progress (lim : Nat) (client : Client) (rnd : Nat → Nat) (s : State) (hinv : Inv s)
    (hrun : s.status = .running) :
    ∃ ev : Event, ev.isStep = true ∧ (step lim client rnd ev s).measure < s.measure := by
  by_cases hlt : s.i < s.opts.Parallelism
  · have hlt2 : s.i < s.shares.length := by rw [hinv.sharesLen]; exact hlt
    have hget : s.shares[s.i]? = some s.shares[s.i] := List.getElem?_eq_getElem hlt2
    refine ⟨.main, rfl, ?_⟩
    rw [step_main_spawn lim client rnd s _ hrun hlt hget]
    simp only [State.measure, hrun]
    rw [List.drop_eq_getElem_cons hlt2]
    simp only [sumBy, List.map_cons, List.sum_cons, List.map_append, List.sum_append,
      List.map_nil, List.sum_nil, Worker.rem]
    omega
  · by_cases hwg : s.wg = 0
    · refine ⟨.main, rfl, ?_⟩
      rw [step_main_return lim client rnd s hrun hlt hwg]
      simp only [State.measure, hrun]
      omega
    · have hpos : 0 < sumBy Worker.active s.workers := by
        rw [← hinv.wgCount]; omega
      obtain ⟨j, w, hw, hact⟩ := sumBy_pos Worker.active s.workers hpos
      have hpc : w.pc ≠ .done := by
        intro hd
        simp [Worker.active, hd] at hact
      refine ⟨.work j, rfl, ?_⟩
      rw [step_work lim client rnd s j w hrun hw]
      rcases workStep_sound lim client rnd j w s hinv hw hpc with
        ⟨w1, t, hstep, heq⟩ | ⟨_, _, heq⟩
      · obtain ⟨_, _, hst, _, hshares, hi, _, _, _, hrem⟩ :=
          workerStep_frame client s t w w1 (hinv.workersOk w (mem_of_getElem? _ _ _ hw)) hstep
        rw [heq]
        have hsum := sumBy_set Worker.rem w1 s.workers j w hw
        simp only [State.measure, hst, hshares, hi]
        omega
      · rw [heq]
        simp only [State.measure, State.panic, hrun]
        omega

/-- From every state of a run there is a schedule, free of cancellations,
after which `junk` is no longer running. -/
theorem completion (lim : Nat) (client : Client) (rnd : Nat → Nat) :
    ∀ (n : Nat) (s : State), Inv s → s.measure ≤ n →
      ∃ sch, neverCancelled sch = true ∧ (exec lim client rnd sch s).status ≠ .running := by
  intro n
  induction n with
  | zero =>
    intro s hinv hm
    refine ⟨[], rfl, ?_⟩
    intro hst
    have hst1 : s.status = .running := hst
    simp [State.measure, hst1] at hm
  | succ n ih =>
    intro s hinv hm
    by_cases hst : s.status = .running
    · obtain ⟨ev, hev, hlt⟩ := progress lim client rnd s hinv hst
      obtain ⟨sch, hnc, hr⟩ := ih (step lim client rnd ev s)
        (step_inv lim client rnd ev s hinv) (by omega)
      refine ⟨ev :: sch, ?_, hr⟩
      simp only [neverCancelled, List.all_cons, hev, Bool.true_and]
      exact hnc
    · exact ⟨[], rfl, hst⟩

/-- No event raises the measure, and every event other than a cancellation
that changes the state lowers it: a run holds at most `measure` such
events. -/
theorem trans_measure (lim : Nat) (client : Client) (s s1 : State) (ev : Event)
    (hinv : Inv s) (htr : Trans lim client s ev s1) :
    s1.measure ≤ s.measure ∧ (ev.isStep = true → s1 ≠ s → s1.measure < s.measure) := by
  cases htr with
  | stutter => exact ⟨Nat.le_refl _, fun _ hne => absurd rfl hne⟩
  | cancel e hrun hctx =>
    refine ⟨Nat.le_refl _, fun hev _ => ?_⟩
    simp [Event.isStep] at hev
  | spawn k hrun hlt hget =>
    have hlt2 : s.i < s.shares.length := by rw [hinv.sharesLen]; exact hlt
    have hk : s.shares[s.i] = k := by
      rw [List.getElem?_eq_getElem hlt2] at hget
      exact Option.some.inj hget
    have : State.measure
        { s with wg := s.wg + 1, workers := s.workers ++ [⟨k, 0, .top, 0⟩], i := s.i + 1 }
        < s.measure := by
      simp only [State.measure, hrun]
      rw [List.drop_eq_getElem_cons hlt2, hk]
      simp only [sumBy, List.map_cons, List.sum_cons, List.map_append, List.sum_append,
        List.map_nil, List.sum_nil, Worker.rem]
      omega
    exact ⟨Nat.le_of_lt this, fun _ _ => this⟩
  | ret hrun hlt hwg =>
    have : State.measure { s with status := .returned s.firstErr } < s.measure := by
      simp only [State.measure, hrun]
      omega
    exact ⟨Nat.le_of_lt this, fun _ _ => this⟩
  | work j w w1 t hrun hw hstep =>
    obtain ⟨_, _, hst, _, hshares, hi, _, _, _, hrem⟩ :=
      workerStep_frame client s t w w1 (hinv.workersOk w (mem_of_getElem? _ _ _ hw)) hstep
    have hsum := sumBy_set Worker.rem w1 s.workers j w hw
    have : State.measure { t with workers := s.workers.set j w1 } < s.measure := by
      simp only [State.measure, hst, hshares, hi]
      omega
    exact ⟨Nat.le_of_lt this, fun _ _ => this⟩
  | allocFail j w hrun hw hwr hfit =>
    have : State.measure (s.panic .makeslice) < s.measure := by
      simp only [State.measure, State.panic, hrun]
      omega
    exact ⟨Nat.le_of_lt this, fun _ _ => this⟩

theorem completion_exists (lim : Nat) (client : Client) (rnd : Nat → Nat) (s : State)
    (hinv : Inv s) :
    ∃ sch, neverCancelled sch = true ∧ (exec lim client rnd sch s).status ≠ .running :=
  completion lim client rnd s.measure s hinv (Nat.le_refl _)

/-! ## Runs without panic -/

/-- A transition does not panic when the buffers of an item are granted, or
when no goroutine is about to write. -/
theorem noPanic_trans (lim : Nat) (client : Client) (s s1 : State) (ev : Event)
    (hsafe : NoPanic s) (htr : Trans lim client s ev s1)
    (hno : itemsFit lim s.opts.ValueLength = true ∨ ∀ w ∈ s.workers, w.pc ≠ .write) :
    NoPanic s1 := by
  cases htr with
  | stutter => exact hsafe
  | cancel e hrun hctx => exact hsafe
  | spawn k hrun hlt hget => exact hsafe
  | ret hrun hlt hwg =>
    intro p hp
    have : Status.returned s.firstErr = Status.panicked p := hp
    cases this
  | work j w w1 t hrun hw hstep => cases hstep <;> exact hsafe
  | allocFail j w hrun hw hwr hfit =>
    rcases hno with hno | hno
    · rw [hfit] at hno
      cases hno
    · exact absurd hwr (hno w (mem_of_getElem? _ _ _ hw))

theorem returned_of_halted (s : State) (hsafe : NoPanic s) (h : s.status ≠ .running) :
    ∃ r, s.status = .returned r := by
  cases hst : s.status with
  | running => exact absurd hst h
  | returned r => exact ⟨r, rfl⟩
  | panicked p => exact absurd hst (hsafe p)

/-! ## Runs in which every write succeeds -/

theorem allOk_trans (lim : Nat) (client : Client) (hc : ∀ log wr, client log wr = none)
    (s s1 : State) (ev : Event) (hinv : Inv s) (h : AllOk s) (hev : ev.isStep = true)
    (htr : Trans lim client s ev s1) : AllOk s1 := by
  obtain ⟨hctx, hfe, hws⟩ := h
  cases htr with
  | stutter => exact ⟨hctx, hfe, hws⟩
  | cancel e hrun hc0 => simp [Event.isStep] at hev
  | spawn k hrun hlt hget =>
    refine ⟨hctx, hfe, ?_⟩
    intro w hw
    rcases List.mem_append.mp hw with hw | hw
    · exact hws w hw
    · rw [List.mem_singleton.mp hw]
      simp [Worker.succeeding]
  | ret hrun hlt hwg => exact ⟨hctx, hfe, hws⟩
  | allocFail j w hrun hw hwr hfit => exact ⟨hctx, hfe, hws⟩
  | work j w w1 t hrun hw hstep =>
    have hmem := mem_of_getElem? s.workers j w hw
    have hok := hinv.workersOk w hmem
    have hsu := hws w hmem
    cases hstep with
    | observeCancel e hpc hlt hc0 => rw [hctx] at hc0; cases hc0
    | enterWrite hpc hlt hc0 =>
      exact ⟨hctx, hfe, forall_set _ _ _ _ hws (by simp [Worker.succeeding])⟩
    | loopExit hpc hlt hwg =>
      refine ⟨hctx, hfe, forall_set _ _ _ _ hws ?_⟩
      simp only [Worker.ok, hpc] at hok
      simp only [Worker.succeeding]
      omega
    | writeFail wr e pos hpc hcl => rw [hc] at hcl; cases hcl
    | writeOk wr pos hpc hcl =>
      exact ⟨hctx, hfe, forall_set _ _ _ _ hws (by simp [Worker.succeeding])⟩
    | record err hpc hwg => simp [Worker.succeeding, hpc] at hsu

/-! ## Runs in which every write fails -/

theorem failing_mono (e : error) (fe : Option error) (w : Worker)
    (h : w.failing e fe) : w.failing e (some e) := by
  unfold Worker.failing at h ⊢
  split <;> simp_all

theorem allFail_trans (lim : Nat) (client : Client) (e : error)
    (hc : ∀ log wr, client log wr = some e)
    (s s1 : State) (ev : Event) (hinv : Inv s) (h : AllFail e s) (hev : ev.isStep = true)
    (htr : Trans lim client s ev s1) : AllFail e s1 := by
  obtain ⟨hctx, hfe, hws⟩ := h
  cases htr with
  | stutter => exact ⟨hctx, hfe, hws⟩
  | cancel e hrun hc0 => simp [Event.isStep] at hev
  | spawn k hrun hlt hget =>
    refine ⟨hctx, hfe, ?_⟩
    intro w hw
    rcases List.mem_append.mp hw with hw | hw
    · exact hws w hw
    · rw [List.mem_singleton.mp hw]
      simp [Worker.failing]
  | ret hrun hlt hwg => exact ⟨hctx, hfe, hws⟩
  | allocFail j w hrun hw hwr hfit => exact ⟨hctx, hfe, hws⟩
  | work j w w1 t hrun hw hstep =>
    have hmem := mem_of_getElem? s.workers j w hw
    have hok := hinv.workersOk w hmem
    have hfa := hws w hmem
    cases hstep with
    | observeCancel e hpc hlt hc0 => rw [hctx] at hc0; cases hc0
    | enterWrite hpc hlt hc0 =>
      refine ⟨hctx, hfe, forall_set _ _ _ _ hws ?_⟩
      simp only [Worker.failing, hpc] at hfa
      simp only [Worker.failing]
      exact hfa.2
    | loopExit hpc hlt hwg =>
      refine ⟨hctx, hfe, forall_set _ _ _ _ hws ?_⟩
      simp only [Worker.failing, hpc] at hfa
      have hk : ¬ 0 < w.keys := by omega
      simp [Worker.failing, hk, hfa.2]
    | writeFail wr e1 pos hpc hcl =>
      refine ⟨hctx, hfe, forall_set _ _ _ _ hws ?_⟩
      rw [hc] at hcl
      have he : e = e1 := by injection hcl
      subst he
      simp only [Worker.failing, hpc] at hfa
      simp only [Worker.ok, hpc] at hok
      simp only [Worker.failing, true_and]
      constructor <;> omega
    | writeOk wr pos hpc hcl => rw [hc] at hcl; cases hcl
    | record err hpc hwg =>
      simp only [Worker.failing, hpc] at hfa
      obtain ⟨herr, hwr, hk⟩ := hfa
      subst herr
      have hnew : setErr s.firstErr (some e) = some e := by
        rcases hfe with hfe | hfe <;> simp [setErr, hfe]
      refine ⟨hctx, Or.inr hnew, ?_⟩
      show ∀ x ∈ s.workers.set j { w with pc := .done },
        x.failing e (setErr s.firstErr (some e))
      rw [hnew]
      refine forall_set _ _ _ _ (fun x hx => failing_mono e _ x (hws x hx)) ?_
      simp [Worker.failing, hk, hwr]

/-! ## Runs that start with a cancelled context -/

theorem cancelled_mono (ce : error) (fe : Option error) (w : Worker)
    (h : w.cancelled ce fe) : w.cancelled ce (some ce) := by
  unfold Worker.cancelled at h ⊢
  refine ⟨h.1, ?_⟩
  have h2 := h.2
  split <;> simp_all

theorem cancelled_trans (lim : Nat) (client : Client) (ce : error)
    (s s1 : State) (ev : Event) (hinv : Inv s) (h : Cancelled ce s)
    (htr : Trans lim client s ev s1) : Cancelled ce s1 := by
  obtain ⟨hctx, hfe, hws⟩ := h
  cases htr with
  | stutter => exact ⟨hctx, hfe, hws⟩
  | cancel e hrun hc0 => rw [hctx] at hc0; cases hc0
  | spawn k hrun hlt hget =>
    refine ⟨hctx, hfe, ?_⟩
    intro w hw
    rcases List.mem_append.mp hw with hw | hw
    · exact hws w hw
    · rw [List.mem_singleton.mp hw]
      simp [Worker.cancelled]
  | ret hrun hlt hwg => exact ⟨hctx, hfe, hws⟩
  | allocFail j w hrun hw hwr hfit => exact ⟨hctx, hfe, hws⟩
  | work j w w1 t hrun hw hstep =>
    have hmem := mem_of_getElem? s.workers j w hw
    have hok := hinv.workersOk w hmem
    have hca := hws w hmem
    cases hstep with
    | observeCancel e hpc hlt hc0 =>
      refine ⟨hctx, hfe, forall_set _ _ _ _ hws ?_⟩
      rw [hctx] at hc0
      have he : ce = e := by injection hc0
      subst he
      exact ⟨hca.1, by simp⟩
    | enterWrite hpc hlt hc0 => rw [hctx] at hc0; cases hc0
    | loopExit hpc hlt hwg =>
      refine ⟨hctx, hfe, forall_set _ _ _ _ hws ?_⟩
      simp only [Worker.cancelled, hpc] at hca
      refine ⟨hca.1, ?_⟩
      show 0 < w.keys → s.firstErr = some ce
      intro hk
      omega
    | writeFail wr e1 pos hpc hcl => simp [Worker.cancelled, hpc] at hca
    | writeOk wr pos hpc hcl => simp [Worker.cancelled, hpc] at hca
    | record err hpc hwg =>
      simp only [Worker.cancelled, hpc] at hca
      obtain ⟨hwr, herr⟩ := hca
      subst herr
      have hnew : setErr s.firstErr (some ce) = some ce := by
        rcases hfe with hfe | hfe <;> simp [setErr, hfe]
      refine ⟨hctx, Or.inr hnew, ?_⟩
      show ∀ x ∈ s.workers.set j { w with pc := .done },
        x.cancelled ce (setErr s.firstErr (some ce))
      rw [hnew]
      refine forall_set _ _ _ _ (fun x hx => cancelled_mono ce _ x (hws x hx)) ?_
      exact ⟨hwr, fun _ => rfl⟩

/-! ## Whole runs -/

theorem neverCancelled_mem (sch : List Event) (h : neverCancelled sch = true) :
    ∀ ev ∈ sch, ev.isStep = true := by
  intro ev hev
  exact List.all_eq_true.mp h ev hev

theorem neverCancelled_append (sch1 sch2 : List Event) (h1 : neverCancelled sch1 = true)
    (h2 : neverCancelled sch2 = true) : neverCancelled (sch1 ++ sch2) = true := by
  simp only [neverCancelled, List.all_append, Bool.and_eq_true] at *
  exact ⟨h1, h2⟩

theorem trans_const (lim : Nat) (client : Client) (s s1 : State) (ev : Event)
    (htr : Trans lim client s ev s1) : s1.opts = s.opts ∧ s1.shares = s.shares := by
  cases htr with
  | stutter => exact ⟨rfl, rfl⟩
  | cancel e hrun hctx => exact ⟨rfl, rfl⟩
  | spawn k hrun hlt hget => exact ⟨rfl, rfl⟩
  | ret hrun hlt hwg => exact ⟨rfl, rfl⟩
  | work j w w1 t hrun hw hstep => cases hstep <;> exact ⟨rfl, rfl⟩
  | allocFail j w hrun hw hwr hfit => exact ⟨rfl, rfl⟩

/-- Every run that got its shares keeps the invariant, the effective options
and the shares. -/
theorem junk_run (lim : Nat) (client : Client) (rnd : Nat → Nat) (ctx : Option error)
    (h : Heap) (p : Nat) (o : options) (sch : List Event) (hp : h[p]? = some o)
    (hfit : makeslice lim uintBytes o.effective.Parallelism = true) :
    ∃ shares, keyShares lim o.effective.NumKeys o.effective.Parallelism = .ok shares
      ∧ shares.length = o.effective.Parallelism
      ∧ (junk.init lim ctx h p).opts = o.effective
      ∧ (junk.init lim ctx h p).shares = shares
      ∧ Inv (junk lim client rnd ctx h p sch)
      ∧ (junk lim client rnd ctx h p sch).opts = o.effective
      ∧ (junk lim client rnd ctx h p sch).shares = shares := by
  obtain ⟨shares, hs, hl, heq⟩ := junk_init_eq lim ctx h p o hp hfit
  have hinv0 := junk_init_inv lim ctx h p o hp hfit
  have h1 : (junk.init lim ctx h p).opts = o.effective := by rw [heq]
  have h2 : (junk.init lim ctx h p).shares = shares := by rw [heq]
  have := exec_induction lim client rnd
    (fun s => Inv s ∧ s.opts = o.effective ∧ s.shares = shares) sch (junk.init lim ctx h p)
    (fun ev _ s1 hs1 => by
      have htr := step_sound lim client rnd ev s1 hs1.1
      have hc := trans_const lim client s1 _ ev htr
      exact ⟨trans_inv lim client s1 _ ev hs1.1 htr, hc.1.trans hs1.2.1, hc.2.trans hs1.2.2⟩)
    ⟨hinv0, h1, h2⟩
  exact ⟨shares, hs, hl, h1, h2, this⟩

/-- No run panics when the slice of shares and the buffers of the items are
granted. -/
theorem junk_run_noPanic (lim : Nat) (client : Client) (rnd : Nat → Nat) (ctx : Option error)
    (h : Heap) (p : Nat) (o : options) (sch : List Event) (hp : h[p]? = some o)
    (hfit : makeslice lim uintBytes o.effective.Parallelism = true)
    (hitems : itemsFit lim o.effective.ValueLength = true) :
    NoPanic (junk lim client rnd ctx h p sch) := by
  obtain ⟨shares, hs, hl, heq⟩ := junk_init_eq lim ctx h p o hp hfit
  have hinv0 := junk_init_inv lim ctx h p o hp hfit
  have h1 : (junk.init lim ctx h p).opts = o.effective := by rw [heq]
  have h0 : NoPanic (junk.init lim ctx h p) := by
    rw [heq]; intro q hq; cases hq
  have := exec_induction lim client rnd
    (fun s => Inv s ∧ s.opts = o.effective ∧ NoPanic s) sch (junk.init lim ctx h p)
    (fun ev _ s1 hs1 => by
      have htr := step_sound lim client rnd ev s1 hs1.1
      have hc := trans_const lim client s1 _ ev htr
      exact ⟨trans_inv lim client s1 _ ev hs1.1 htr, hc.1.trans hs1.2.1,
        noPanic_trans lim client s1 _ ev hs1.2.2 htr (Or.inl (by rw [hs1.2.1]; exact hitems))⟩)
    ⟨hinv0, h1, h0⟩
  exact this.2.2

theorem junk_run_allOk (lim : Nat) (client : Client) (rnd : Nat → Nat) (h : Heap) (p : Nat)
    (o : options) (sch : List Event) (hp : h[p]? = some o)
    (hfit : makeslice lim uintBytes o.effective.Parallelism = true)
    (hc : ∀ log wr, client log wr = none) (hnc : neverCancelled sch = true) :
    AllOk (junk lim client rnd none h p sch) := by
  obtain ⟨shares, hs, hl, heq⟩ := junk_init_eq lim none h p o hp hfit
  have hinv0 := junk_init_inv lim none h p o hp hfit
  have h0 : AllOk (junk.init lim none h p) := by
    rw [heq]; exact ⟨rfl, rfl, by simp⟩
  have := exec_induction lim client rnd (fun s => Inv s ∧ AllOk s) sch (junk.init lim none h p)
    (fun ev hev s1 hs1 => by
      have htr := step_sound lim client rnd ev s1 hs1.1
      exact ⟨trans_inv lim client s1 _ ev hs1.1 htr,
        allOk_trans lim client hc s1 _ ev hs1.1 hs1.2 (neverCancelled_mem sch hnc ev hev)
          htr⟩)
    ⟨hinv0, h0⟩
  exact this.2

theorem junk_run_allFail (lim : Nat) (client : Client) (rnd : Nat → Nat) (h : Heap) (p : Nat)
    (o : options) (sch : List Event) (e : error) (hp : h[p]? = some o)
    (hfit : makeslice lim uintBytes o.effective.Parallelism = true)
    (hc : ∀ log wr, client log wr = some e) (hnc : neverCancelled sch = true) :
    AllFail e (junk lim client rnd none h p sch) := by
  obtain ⟨shares, hs, hl, heq⟩ := junk_init_eq lim none h p o hp hfit
  have hinv0 := junk_init_inv lim none h p o hp hfit
  have h0 : AllFail e (junk.init lim none h p) := by
    rw [heq]; exact ⟨rfl, Or.inl rfl, by simp⟩
  have := exec_induction lim client rnd (fun s => Inv s ∧ AllFail e s) sch
    (junk.init lim none h p)
    (fun ev hev s1 hs1 => by
      have htr := step_sound lim client rnd ev s1 hs1.1
      exact ⟨trans_inv lim client s1 _ ev hs1.1 htr,
        allFail_trans lim client e hc s1 _ ev hs1.1 hs1.2
          (neverCancelled_mem sch hnc ev hev) htr⟩)
    ⟨hinv0, h0⟩
  exact this.2

/-- A run that starts with a cancelled context keeps `Cancelled` and, as no
goroutine ever reaches a write, does not panic whatever the value length. -/
theorem junk_run_cancelled (lim : Nat) (client : Client) (rnd : Nat → Nat) (h : Heap)
    (p : Nat) (o : options) (sch : List Event) (ce : error) (hp : h[p]? = some o)
    (hfit : makeslice lim uintBytes o.effective.Parallelism = true) :
    Cancelled ce (junk lim client rnd (some ce) h p sch)
      ∧ NoPanic (junk lim client rnd (some ce) h p sch) := by
  obtain ⟨shares, hs, hl, heq⟩ := junk_init_eq lim (some ce) h p o hp hfit
  have hinv0 := junk_init_inv lim (some ce) h p o hp hfit
  have h0 : Cancelled ce (junk.init lim (some ce) h p) := by
    rw [heq]; exact ⟨rfl, Or.inl rfl, by simp⟩
  have h1 : NoPanic (junk.init lim (some ce) h p) := by
    rw [heq]; intro q hq; cases hq
  have := exec_induction lim client rnd (fun s => Inv s ∧ Cancelled ce s ∧ NoPanic s) sch
    (junk.init lim (some ce) h p)
    (fun ev _ s1 hs1 => by
      have htr := step_sound lim client rnd ev s1 hs1.1
      refine ⟨trans_inv lim client s1 _ ev hs1.1 htr,
        cancelled_trans lim client ce s1 _ ev hs1.1 hs1.2.1 htr,
        noPanic_trans lim client s1 _ ev hs1.2.2 htr (Or.inr ?_)⟩
      intro w hw hpc
      have hcw := (hs1.2.1.2.2 w hw).2
      simp only [hpc] at hcw)
    ⟨hinv0, h0, h1⟩
  exact this.2

/-- From the state reached by any schedule there is a schedule after which
`junk` is no longer running. -/
theorem junk_completes (lim : Nat) (client : Client) (rnd : Nat → Nat) (ctx : Option error)
    (h : Heap) (p : Nat) (o : options) (sch : List Event) (hp : h[p]? = some o)
    (hfit : makeslice lim uintBytes o.effective.Parallelism = true) :
    ∃ sch1, neverCancelled sch1 = true
      ∧ (junk lim client rnd ctx h p (sch ++ sch1)).status ≠ .running := by
  obtain ⟨_, _, _, _, _, hinv, _, _⟩ := junk_run lim client rnd ctx h p o sch hp hfit
  obtain ⟨sch1, hnc, hr⟩ := completion_exists lim client rnd _ hinv
  refine ⟨sch1, hnc, ?_⟩
  simp only [junk, exec_append]
  exact hr

/-- From the state reached by any schedule, `junk` can return, when the slice
of shares and the buffers of the items are granted. -/
theorem junk_returns (lim : Nat) (client : Client) (rnd : Nat → Nat) (ctx : Option error)
    (h : Heap) (p : Nat) (o : options) (sch : List Event) (hp : h[p]? = some o)
    (hfit : makeslice lim uintBytes o.effective.Parallelism = true)
    (hitems : itemsFit lim o.effective.ValueLength = true) :
    ∃ sch1, neverCancelled sch1 = true
      ∧ ∃ r, (junk lim client rnd ctx h p (sch ++ sch1)).status = .returned r := by
  obtain ⟨sch1, hnc, hr⟩ := junk_completes lim client rnd ctx h p o sch hp hfit
  exact ⟨sch1, hnc, returned_of_halted _
    (junk_run_noPanic lim client rnd ctx h p o (sch ++ sch1) hp hfit hitems) hr⟩

/-- A run whose slice of shares is not granted has panicked in `make` at the
entry and stays there. -/
theorem junk_noalloc (lim : Nat) (client : Client) (rnd : Nat → Nat) (ctx : Option error)
    (h : Heap) (p : Nat) (o : options) (sch : List Event) (hp : h[p]? = some o)
    (hfit : makeslice lim uintBytes o.effective.Parallelism = false) :
    (junk lim client rnd ctx h p sch).status = .panicked .makeslice := by
  have h0 := (junk_init_noalloc lim ctx h p o hp hfit).1
  have hne : (junk.init lim ctx h p).status ≠ .running := by
    rw [h0]; intro hx; cases hx
  rw [junk, exec_halted lim client rnd sch _ hne]
  exact h0

/-- Whatever the options, the only panic of a run is a `make` that is not
granted. -/
theorem junk_panic_cause (lim : Nat) (client : Client) (rnd : Nat → Nat) (ctx : Option error)
    (h : Heap) (p : Nat) (o : options) (sch : List Event) (hp : h[p]? = some o) :
    ∀ q, (junk lim client rnd ctx h p sch).status = .panicked q → q = .makeslice := by
  intro q hq
  cases hfit : makeslice lim uintBytes o.effective.Parallelism with
  | true =>
    obtain ⟨_, _, _, _, _, hinv, _, _⟩ := junk_run lim client rnd ctx h p o sch hp hfit
    exact hinv.panicCause q hq
  | false =>
    rw [junk_noalloc lim client rnd ctx h p o sch hp hfit] at hq
    injection hq with h1
    exact h1.symm

/-! ## The state in which `junk` returns -/

theorem sumBy_zero (f : Worker → Nat) (ws : List Worker) (h : sumBy f ws = 0) :
    ∀ w ∈ ws, f w = 0 := by
  intro w hw
  obtain ⟨j, hlt, hj⟩ := List.getElem_of_mem hw
  have h1 := le_sumBy f ws j w (by rw [List.getElem?_eq_getElem hlt, hj])
  omega

theorem returned_facts (s : State) (hinv : Inv s) (r : Option error)
    (hr : s.status = .returned r) :
    r = s.firstErr ∧ (∀ w ∈ s.workers, w.pc = .done)
      ∧ s.workers.map Worker.keys = s.shares
      ∧ s.workers.length = s.opts.Parallelism := by
  obtain ⟨h1, h2, h3⟩ := hinv.ret r hr
  have hkeys : s.workers.map Worker.keys = s.shares := by
    rw [hinv.keys, h2, ← hinv.sharesLen, List.take_length]
  refine ⟨h1, ?_, hkeys, ?_⟩
  · intro w hw
    have hz := sumBy_zero Worker.active s.workers (by rw [← hinv.wgCount]; exact h3) w hw
    by_contra hne
    rw [active_pos w hne] at hz
    cases hz
  · have := congrArg List.length hkeys
    rw [List.length_map] at this
    rw [this, hinv.sharesLen]

theorem writes_le_keys (w : Worker) (h : w.ok) : w.writes ≤ w.keys := by
  unfold Worker.ok at h
  split at h <;> omega

theorem log_le_shares (s : State) (hinv : Inv s) : s.log.length ≤ s.shares.sum := by
  have h1 : sumBy Worker.writes s.workers ≤ sumBy Worker.keys s.workers :=
    sumBy_le _ _ _ (fun w hw => writes_le_keys w (hinv.workersOk w hw))
  have h2 : sumBy Worker.keys s.workers = (s.shares.take s.i).sum := by
    rw [← hinv.keys]; rfl
  have h3 := List.sum_take_add_sum_drop s.shares s.i
  have h4 := hinv.logLen
  omega

theorem worker_share (s : State) (hinv : Inv s) (j : Nat) (w : Worker)
    (hw : s.workers[j]? = some w) : s.shares[j]? = some w.keys := by
  have h1 : (s.workers.map Worker.keys)[j]? = some w.keys := by
    rw [List.getElem?_map, hw]; rfl
  rw [hinv.keys, List.getElem?_take] at h1
  split at h1
  · exact h1
  · cases h1

theorem positive_share (s : State) (hinv : Inv s) (r : Option error)
    (hr : s.status = .returned r) (hpos : 0 < s.shares.sum) :
    ∃ w ∈ s.workers, 0 < w.keys ∧ w.pc = .done := by
  obtain ⟨_, hdone, hkeys, _⟩ := returned_facts s hinv r hr
  have h1 : 0 < sumBy Worker.keys s.workers := by
    show 0 < (s.workers.map Worker.keys).sum
    rw [hkeys]; exact hpos
  obtain ⟨j, w, hw, hk⟩ := sumBy_pos Worker.keys s.workers h1
  have hmem := mem_of_getElem? s.workers j w hw
  exact ⟨w, hmem, hk, hdone w hmem⟩

theorem effective_shares_sum (lim : Nat) (o : options) (hr : o.NumKeys < uintSize)
    (hfit : makeslice lim uintBytes o.effective.Parallelism = true) (shares : List Nat)
    (hs : keyShares lim o.effective.NumKeys o.effective.Parallelism = .ok shares) :
    shares.sum = o.effective.NumKeys ∧ 0 < shares.sum := by
  have hk : o.effective.NumKeys < uintSize := by
    simp only [options.effective, uintSize] at *
    split <;> omega
  have h1 := (keyShares_sum lim _ _ hk (effective_pos o).2.2 hfit shares hs).2
  have h2 := (effective_pos o).1
  omega

theorem allOk_returned (s : State) (hinv : Inv s) (hok : AllOk s) (r : Option error)
    (hr : s.status = .returned r) :
    r = none ∧ (∀ w ∈ s.workers, w.writes = w.keys) ∧ s.log.length = s.shares.sum := by
  obtain ⟨hfe, hdone, hkeys, _⟩ := returned_facts s hinv r hr
  have hall : ∀ w ∈ s.workers, w.writes = w.keys := by
    intro w hw
    have h1 := hok.2.2 w hw
    simpa [Worker.succeeding, hdone w hw] using h1
  refine ⟨hfe.trans hok.2.1, hall, ?_⟩
  rw [hinv.logLen, sumBy_eq Worker.writes Worker.keys s.workers hall, ← hkeys]
  rfl

theorem failing_writes (e : error) (fe : Option error) (w : Worker) (h : w.failing e fe) :
    w.writes ≤ 1 ∧ (w.pc = .done → w.writes = if 0 < w.keys then 1 else 0) := by
  unfold Worker.failing at h
  split at h
  · rename_i hpc; simp [hpc, h.2]
  · rename_i hpc; simp [hpc, h]
  · rename_i x hpc; simp [hpc, h.2.1]
  · rename_i hpc
    refine ⟨?_, fun _ => h.1⟩
    rw [h.1]; split <;> omega

theorem sumBy_le_length (f : Worker → Nat) (ws : List Worker) (h : ∀ w ∈ ws, f w ≤ 1) :
    sumBy f ws ≤ ws.length := by
  have h1 := sumBy_le f (fun _ => 1) ws h
  have h2 : sumBy (fun _ => 1) ws = ws.length := by
    induction ws with
    | nil => rfl
    | cons x ws ih =>
      have := ih (fun w hw => h w (List.mem_cons_of_mem _ hw))
        (sumBy_le f (fun _ => 1) ws (fun w hw => h w (List.mem_cons_of_mem _ hw)))
      simp only [sumBy, List.map_cons, List.sum_cons, List.length_cons] at this ⊢
      omega
  omega

/-! ## The claims about the coordinator -/

/-- C9, as the code has it: for every configuration whose slice of shares and
whose item buffers are granted by make (effective Parallelism and ValueLength
below 2^63 and within the allocation limit), junk gives task i the share
keyShares(NumKeys, Parallelism)[i] (after defaults), never starts more than
Parallelism tasks and has started exactly Parallelism of them when it returns;
each task issues at most its share of writes, so the total number of writes in
any run is at most the effective NumKeys; and when the context is never
cancelled and every write succeeds, each task has issued exactly its share
when junk returns, the total is exactly the effective NumKeys, and junk returns
no error; no run panics, and junk can return from every state of a run. -/
theorem junk_shares_and_writes (lim : Nat) (client : Client) (rnd : Nat → Nat)
    (ctx : Option error) (h : Heap) (p : Nat) (o : options) (sch : List Event)
    (hp : h[p]? = some o) (hr : o.inRange)
    (hfit : makeslice lim uintBytes o.effective.Parallelism = true)
    (hitems : itemsFit lim o.effective.ValueLength = true) :
    ∀ s, s = junk lim client rnd ctx h p sch →
      ∃ shares, keyShares lim o.effective.NumKeys o.effective.Parallelism = .ok shares
        ∧ (∀ q, s.status ≠ .panicked q)
        ∧ s.workers.length ≤ o.effective.Parallelism
        ∧ (∀ (j : Nat) (w : Worker), s.workers[j]? = some w →
            shares[j]? = some w.keys ∧ w.writes ≤ w.keys)
        ∧ s.log.length = sumBy Worker.writes s.workers
        ∧ s.log.length ≤ o.effective.NumKeys
        ∧ (∀ r, s.status = .returned r →
            s.workers.length = o.effective.Parallelism ∧ ∀ w ∈ s.workers, w.pc = .done)
        ∧ (ctx = none → neverCancelled sch = true → (∀ log wr, client log wr = none) →
            ∀ r, s.status = .returned r →
              r = none ∧ (∀ w ∈ s.workers, w.writes = w.keys)
                ∧ s.log.length = o.effective.NumKeys)
        ∧ ∃ sch1, neverCancelled sch1 = true
            ∧ ∃ r, (junk lim client rnd ctx h p (sch ++ sch1)).status = .returned r := by
  intro s hs
  subst hs
  obtain ⟨shares, hsh, hl, _, _, hinv, hopts, hshares⟩ :=
    junk_run lim client rnd ctx h p o sch hp hfit
  have hsum := effective_shares_sum lim o hr.1 hfit shares hsh
  have hlen : (junk lim client rnd ctx h p sch).workers.length ≤ o.effective.Parallelism := by
    have h1 := congrArg List.length hinv.keys
    rw [List.length_map, List.length_take] at h1
    have h2 := hinv.launched
    rw [hopts] at h2
    omega
  refine ⟨shares, hsh, junk_run_noPanic lim client rnd ctx h p o sch hp hfit hitems, hlen, ?_,
    hinv.logLen, ?_, ?_, ?_, junk_returns lim client rnd ctx h p o sch hp hfit hitems⟩
  · intro j w hw
    have h1 := worker_share _ hinv j w hw
    rw [hshares] at h1
    exact ⟨h1, writes_le_keys w (hinv.workersOk w (mem_of_getElem? _ _ _ hw))⟩
  · have h1 := log_le_shares _ hinv
    rw [hshares] at h1
    omega
  · intro r hret
    obtain ⟨_, hdone, _, hn⟩ := returned_facts _ hinv r hret
    rw [hopts] at hn
    exact ⟨hn, hdone⟩
  · intro hctx hnc hc r hret
    subst hctx
    have hok := junk_run_allOk lim client rnd h p o sch hp hfit hc hnc
    obtain ⟨h1, h2, h3⟩ := allOk_returned _ hinv hok r hret
    rw [hshares] at h3
    exact ⟨h1, h2, by omega⟩

theorem junk_shares_and_writes_witness :
    [sampleOpts][0]? = some sampleOpts ∧ sampleOpts.inRange
    ∧ makeslice maxAlloc uintBytes sampleOpts.effective.Parallelism = true
    ∧ itemsFit maxAlloc sampleOpts.effective.ValueLength = true
    ∧ neverCancelled sampleSchedule = true
    ∧ (junk maxAlloc okClient sampleRnd none [sampleOpts] 0 sampleSchedule).status
        = .returned none
    ∧ (junk maxAlloc okClient sampleRnd none [sampleOpts] 0 sampleSchedule).log.length = 3 := by
  obtain ⟨shares, _, _, _, _, _, _, _, hok, _⟩ :=
    junk_shares_and_writes maxAlloc okClient sampleRnd none [sampleOpts] 0 sampleOpts
      sampleSchedule rfl (by decide) (by decide) (by decide) _ rfl
  have hst : (junk maxAlloc okClient sampleRnd none [sampleOpts] 0 sampleSchedule).status
      = .returned none := by decide
  exact ⟨rfl, by decide, by decide, by decide, by decide, hst,
    (hok rfl (by decide) (fun _ _ => rfl) none hst).2.2⟩

/-- C9 fails as stated: with ValueLength = 2^63 (in the range of uint), no
cancellation and a write dependency that always succeeds, the first goroutine
panics in make before its first write; with Parallelism = 2^63 junk panics in
keyShares and never returns, whatever the allocation limit and the schedule. -/
theorem junk_shares_and_writes_fails :
    hugeValOpts.inRange ∧ hugeParOpts.inRange
    ∧ (junk maxAlloc okClient sampleRnd none [hugeValOpts] 0 [.main, .work 0, .work 0]).status
        = .panicked .makeslice
    ∧ (junk maxAlloc okClient sampleRnd none [hugeValOpts] 0 [.main, .work 0, .work 0]).log = []
    ∧ ¬ ∃ lim sch r,
        (junk lim okClient sampleRnd none [hugeParOpts] 0 sch).status = .returned r := by
  refine ⟨by decide, by decide, by decide, by decide, ?_⟩
  rintro ⟨lim, sch, r, hret⟩
  rw [junk_noalloc lim okClient sampleRnd none [hugeParOpts] 0 hugeParOpts sch rfl
    (makeslice_neg lim uintBytes _ (by decide))] at hret
  cases hret

/-- C10: for every options record passed to junk, also one with
Parallelism = 0, the worker count handed to keyShares is at least 1, so the
division and the modulo by workers (which panic on a worker count of 0) and the
indexing in keyShares cannot fail: the only panic of keyShares is a make that
is not granted; when keyShares returns, its result has as many entries as the
worker count, so every index read by the launch loop is within its bounds;
and no run of junk panics with a division by zero or an index out of range. -/
theorem junk_divide_index_safe (lim : Nat) (client : Client) (rnd : Nat → Nat)
    (ctx : Option error) (h : Heap) (p : Nat) (o : options) (sch : List Event)
    (hp : h[p]? = some o) :
    (∀ keys, keyShares lim keys 0 = .error .divideByZero)
    ∧ (junk.init lim ctx h p).opts = o.effective
    ∧ 1 ≤ (junk.init lim ctx h p).opts.Parallelism
    ∧ (∀ q, keyShares lim (junk.init lim ctx h p).opts.NumKeys
          (junk.init lim ctx h p).opts.Parallelism = .error q →
        q = .makeslice
          ∧ makeslice lim uintBytes (junk.init lim ctx h p).opts.Parallelism = false)
    ∧ (∀ shares, keyShares lim (junk.init lim ctx h p).opts.NumKeys
          (junk.init lim ctx h p).opts.Parallelism = .ok shares →
        (junk.init lim ctx h p).shares = shares
          ∧ (junk.init lim ctx h p).status = .running
          ∧ shares.length = (junk.init lim ctx h p).opts.Parallelism
          ∧ ∀ i, i < (junk.init lim ctx h p).opts.Parallelism → ∃ k, shares[i]? = some k)
    ∧ (∀ q, (junk lim client rnd ctx h p sch).status = .panicked q →
        q ≠ .divideByZero ∧ q ≠ .indexOutOfRange ∧ q = .makeslice) := by
  have hopts : (junk.init lim ctx h p).opts = o.effective := by
    cases hfit : makeslice lim uintBytes o.effective.Parallelism with
    | true =>
      obtain ⟨shares, _, _, heq⟩ := junk_init_eq lim ctx h p o hp hfit
      rw [heq]
    | false => exact (junk_init_noalloc lim ctx h p o hp hfit).2
  have hpos : 1 ≤ o.effective.Parallelism := (effective_pos o).2.2
  refine ⟨keyShares_zero lim, hopts, by rw [hopts]; exact hpos, ?_, ?_, ?_⟩
  · intro q hq
    rw [hopts] at hq ⊢
    exact keyShares_error lim _ _ hpos q hq
  · intro shares hsh
    rw [hopts] at hsh ⊢
    have hfit : makeslice lim uintBytes o.effective.Parallelism = true := by
      cases hf : makeslice lim uintBytes o.effective.Parallelism with
      | true => rfl
      | false =>
        rw [keyShares_noalloc lim _ _ hpos hf] at hsh
        cases hsh
    obtain ⟨shares1, hs1, hl, heq⟩ := junk_init_eq lim ctx h p o hp hfit
    have hsame : shares1 = shares := by
      rw [hs1] at hsh
      injection hsh
    subst hsame
    refine ⟨by rw [heq], by rw [heq], hl, ?_⟩
    intro i hi
    rw [← hl] at hi
    exact ⟨shares1[i], List.getElem?_eq_getElem hi⟩
  · intro q hq
    have h1 := junk_panic_cause lim client rnd ctx h p o sch hp q hq
    subst h1
    exact ⟨by decide, by decide, rfl⟩

theorem junk_divide_index_safe_witness :
    [zeroOpts][0]? = some zeroOpts
    ∧ (junk.init maxAlloc none [zeroOpts] 0).opts.Parallelism = 4
    ∧ (∀ shares, keyShares maxAlloc (junk.init maxAlloc none [zeroOpts] 0).opts.NumKeys
          (junk.init maxAlloc none [zeroOpts] 0).opts.Parallelism = .ok shares →
        shares.length = (junk.init maxAlloc none [zeroOpts] 0).opts.Parallelism)
    ∧ ∀ q, (junk maxAlloc okClient sampleRnd none [hugeParOpts] 0 sampleSchedule).status
        = .panicked q → q ≠ .divideByZero ∧ q ≠ .indexOutOfRange ∧ q = .makeslice :=
  ⟨rfl, by decide,
    fun shares hsh =>
      ((junk_divide_index_safe maxAlloc okClient sampleRnd none [zeroOpts] 0 zeroOpts
        sampleSchedule rfl).2.2.2.2.1 shares hsh).2.2.1,
    (junk_divide_index_safe maxAlloc okClient sampleRnd none [hugeParOpts] 0 hugeParOpts
      sampleSchedule rfl).2.2.2.2.2⟩

/-- C5, as the code has it: for every configuration whose slice of shares and
whose item buffers are granted by make, and every error e, when the context is
never cancelled and the write dependency returns e on every call, no run
panics, every worker task issues at most one write (exactly one when it has
terminated with a positive share, none with a zero share), junk returns, when
it returns, the error e, and junk can return from every state of such a
run. -/
theorem junk_write_failure (lim : Nat) (client : Client) (rnd : Nat → Nat) (h : Heap)
    (p : Nat) (o : options) (sch : List Event) (e : error) (hp : h[p]? = some o)
    (hr : o.inRange) (hfit : makeslice lim uintBytes o.effective.Parallelism = true)
    (hitems : itemsFit lim o.effective.ValueLength = true)
    (hc : ∀ log wr, client log wr = some e) (hnc : neverCancelled sch = true) :
    ∀ s, s = junk lim client rnd none h p sch →
      (∀ q, s.status ≠ .panicked q)
      ∧ (∀ w ∈ s.workers,
          w.writes ≤ 1 ∧ (w.pc = .done → w.writes = if 0 < w.keys then 1 else 0))
      ∧ s.log.length ≤ s.workers.length
      ∧ (∀ r, s.status = .returned r → r = some e ∧ ∀ w ∈ s.workers, w.pc = .done)
      ∧ ∃ sch1, neverCancelled sch1 = true
          ∧ ∃ r, (junk lim client rnd none h p (sch ++ sch1)).status = .returned r := by
  intro s hs
  subst hs
  obtain ⟨shares, hsh, hl, _, _, hinv, hopts, hshares⟩ :=
    junk_run lim client rnd none h p o sch hp hfit
  have hfail := junk_run_allFail lim client rnd h p o sch e hp hfit hc hnc
  have hsum := effective_shares_sum lim o hr.1 hfit shares hsh
  have hw : ∀ w ∈ (junk lim client rnd none h p sch).workers,
      w.writes ≤ 1 ∧ (w.pc = .done → w.writes = if 0 < w.keys then 1 else 0) :=
    fun w hw => failing_writes e _ w (hfail.2.2 w hw)
  refine ⟨junk_run_noPanic lim client rnd none h p o sch hp hfit hitems, hw, ?_, ?_,
    junk_returns lim client rnd none h p o sch hp hfit hitems⟩
  · rw [hinv.logLen]
    exact sumBy_le_length _ _ (fun w hw1 => (hw w hw1).1)
  · intro r hret
    obtain ⟨hfe, hdone, _, _⟩ := returned_facts _ hinv r hret
    refine ⟨?_, hdone⟩
    obtain ⟨w, hmem, hk, hpc⟩ := positive_share _ hinv r hret (by rw [hshares]; exact hsum.2)
    have h1 := hfail.2.2 w hmem
    simp only [Worker.failing, hpc] at h1
    rw [hfe]
    exact h1.2 hk

theorem junk_write_failure_witness :
    [sampleOpts][0]? = some sampleOpts ∧ sampleOpts.inRange
    ∧ makeslice maxAlloc uintBytes sampleOpts.effective.Parallelism = true
    ∧ itemsFit maxAlloc sampleOpts.effective.ValueLength = true
    ∧ neverCancelled sampleSchedule = true
    ∧ (∃ r, (junk maxAlloc (failClient "boom") sampleRnd none [sampleOpts] 0
        sampleSchedule).status = .returned r)
    ∧ ∀ r, (junk maxAlloc (failClient "boom") sampleRnd none [sampleOpts] 0
        sampleSchedule).status = .returned r → r = some "boom" := by
  have hthm := junk_write_failure maxAlloc (failClient "boom") sampleRnd [sampleOpts] 0
    sampleOpts sampleSchedule "boom" rfl (by decide) (by decide) (by decide) (fun _ _ => rfl)
    (by decide) _ rfl
  exact ⟨rfl, by decide, by decide, by decide, by decide, ⟨some "boom", by decide⟩,
    fun r hret => (hthm.2.2.2.1 r hret).1⟩

/-- C5 fails as stated: with Parallelism = 2^63 (in the range of uint), no
cancellation and a write dependency that always fails with e, junk panics in
the make of keyShares before any write and never returns e, whatever the
allocation limit and the schedule. -/
theorem junk_write_failure_fails :
    hugeParOpts.inRange ∧ neverCancelled sampleSchedule = true
    ∧ (junk maxAlloc (failClient "boom") sampleRnd none [hugeParOpts] 0 sampleSchedule).status
        = .panicked .makeslice
    ∧ ¬ ∃ lim sch r,
        (junk lim (failClient "boom") sampleRnd none [hugeParOpts] 0 sch).status
          = .returned r := by
  refine ⟨by decide, by decide, by decide, ?_⟩
  rintro ⟨lim, sch, r, hret⟩
  rw [junk_noalloc lim (failClient "boom") sampleRnd none [hugeParOpts] 0 hugeParOpts sch rfl
    (makeslice_neg lim uintBytes _ (by decide))] at hret
  cases hret

/-- C6, as the code has it: for every configuration whose slice of shares is
granted by make (effective Parallelism below 2^63 and within the allocation
limit) and every write dependency, when the context is already cancelled (with
error ce) before junk starts, no run panics, no write is ever issued, every
worker task has terminated with zero writes when junk returns, junk returns,
when it returns, the cancellation error ce (so neither nil nor a write error),
and junk can return from every state of such a run. -/
theorem junk_cancelled_before_start (lim : Nat) (client : Client) (rnd : Nat → Nat)
    (h : Heap) (p : Nat) (o : options) (sch : List Event) (ce : error)
    (hp : h[p]? = some o) (hr : o.inRange)
    (hfit : makeslice lim uintBytes o.effective.Parallelism = true) :
    ∀ s, s = junk lim client rnd (some ce) h p sch →
      (∀ q, s.status ≠ .panicked q)
      ∧ s.log = []
      ∧ (∀ w ∈ s.workers, w.writes = 0)
      ∧ (s.firstErr = none ∨ s.firstErr = some ce)
      ∧ (∀ r, s.status = .returned r → r = some ce ∧ ∀ w ∈ s.workers, w.pc = .done)
      ∧ ∃ sch1, ∃ r,
          (junk lim client rnd (some ce) h p (sch ++ sch1)).status = .returned r := by
  intro s hs
  subst hs
  obtain ⟨shares, hsh, hl, _, _, hinv, hopts, hshares⟩ :=
    junk_run lim client rnd (some ce) h p o sch hp hfit
  obtain ⟨hcan, hsafe⟩ := junk_run_cancelled lim client rnd h p o sch ce hp hfit
  have hsum := effective_shares_sum lim o hr.1 hfit shares hsh
  have hw : ∀ w ∈ (junk lim client rnd (some ce) h p sch).workers, w.writes = 0 :=
    fun w hw => (hcan.2.2 w hw).1
  refine ⟨hsafe, ?_, hw, hcan.2.1, ?_, ?_⟩
  · have h1 := sumBy_le Worker.writes (fun _ => 0) _ (fun w hw1 => Nat.le_of_eq (hw w hw1))
    have h2 : sumBy (fun _ => 0) (junk lim client rnd (some ce) h p sch).workers = 0 := by
      simp [sumBy]
    have h3 := hinv.logLen
    exact List.length_eq_zero.mp (by omega)
  · intro r hret
    obtain ⟨hfe, hdone, _, _⟩ := returned_facts _ hinv r hret
    refine ⟨?_, hdone⟩
    obtain ⟨w, hmem, hk, hpc⟩ := positive_share _ hinv r hret (by rw [hshares]; exact hsum.2)
    have h1 := (hcan.2.2 w hmem).2
    simp only [hpc] at h1
    rw [hfe]
    exact h1 hk
  · obtain ⟨sch1, _, hhalt⟩ := junk_completes lim client rnd (some ce) h p o sch hp hfit
    exact ⟨sch1, returned_of_halted _
      (junk_run_cancelled lim client rnd h p o (sch ++ sch1) ce hp hfit).2 hhalt⟩

theorem junk_cancelled_before_start_witness :
    [hugeValOpts][0]? = some hugeValOpts ∧ hugeValOpts.inRange
    ∧ makeslice maxAlloc uintBytes hugeValOpts.effective.Parallelism = true
    ∧ (junk maxAlloc okClient sampleRnd (some "context canceled") [hugeValOpts] 0
        sampleSchedule).log = []
    ∧ (∃ r, (junk maxAlloc okClient sampleRnd (some "context canceled") [hugeValOpts] 0
        sampleSchedule).status = .returned r)
    ∧ ∀ r, (junk maxAlloc okClient sampleRnd (some "context canceled") [hugeValOpts] 0
        sampleSchedule).status = .returned r → r = some "context canceled" := by
  have hthm := junk_cancelled_before_start maxAlloc okClient sampleRnd [hugeValOpts] 0
    hugeValOpts sampleSchedule "context canceled" rfl (by decide) (by decide) _ rfl
  exact ⟨rfl, by decide, by decide, hthm.2.1, ⟨some "context canceled", by decide⟩,
    fun r hret => (hthm.2.2.2.2.1 r hret).1⟩

/-- C6 fails as stated: with Parallelism = 2^63 (in the range of uint) and the
context cancelled before junk starts, junk panics in the make of keyShares
before any goroutine starts and never returns the cancellation error, whatever
the allocation limit and the schedule. -/
theorem junk_cancelled_before_start_fails :
    hugeParOpts.inRange
    ∧ (junk maxAlloc okClient sampleRnd (some "context canceled") [hugeParOpts] 0
        sampleSchedule).status = .panicked .makeslice
    ∧ (junk maxAlloc okClient sampleRnd (some "context canceled") [hugeParOpts] 0
        sampleSchedule).workers = []
    ∧ ¬ ∃ lim sch r,
        (junk lim okClient sampleRnd (some "context canceled") [hugeParOpts] 0 sch).status
          = .returned r := by
  refine ⟨by decide, by decide, by decide, ?_⟩
  rintro ⟨lim, sch, r, hret⟩
  rw [junk_noalloc lim okClient sampleRnd (some "context canceled") [hugeParOpts] 0
    hugeParOpts sch rfl (makeslice_neg lim uintBytes _ (by decide))] at hret
  cases hret

/-- C4, as the code has it: with NumKeys = 0 (any write dependency, context not
cancelled, and a Parallelism and a ValueLength whose slices are granted by
make) the default applies and the run is one over 51200 keys: it does not
panic and issues at most 51200 writes, and when every write succeeds junk has
issued exactly 51200 writes when it returns and returns no error; junk can
return from every state of the run. -/
theorem junk_zero_numkeys_default (lim : Nat) (client : Client) (rnd : Nat → Nat) (h : Heap)
    (p : Nat) (o : options) (sch : List Event) (hp : h[p]? = some o) (hz : o.NumKeys = 0)
    (hfit : makeslice lim uintBytes o.effective.Parallelism = true)
    (hitems : itemsFit lim o.effective.ValueLength = true)
    (hnc : neverCancelled sch = true) :
    ∀ s, s = junk lim client rnd none h p sch →
      s.opts.NumKeys = 51200
      ∧ (∀ q, s.status ≠ .panicked q)
      ∧ s.log.length ≤ 51200
      ∧ ((∀ log wr, client log wr = none) →
          ∀ r, s.status = .returned r → r = none ∧ s.log.length = 51200)
      ∧ ∃ sch1, neverCancelled sch1 = true
          ∧ ∃ r, (junk lim client rnd none h p (sch ++ sch1)).status = .returned r := by
  intro s hs
  subst hs
  obtain ⟨shares, hsh, hl, _, _, hinv, hopts, hshares⟩ :=
    junk_run lim client rnd none h p o sch hp hfit
  have hnk : o.effective.NumKeys = 51200 := by simp [options.effective, hz]
  have hsum := effective_shares_sum lim o (by rw [hz]; decide) hfit shares hsh
  refine ⟨by rw [hopts]; exact hnk,
    junk_run_noPanic lim client rnd none h p o sch hp hfit hitems, ?_, ?_,
    junk_returns lim client rnd none h p o sch hp hfit hitems⟩
  · have h1 := log_le_shares _ hinv
    rw [hshares] at h1
    omega
  · intro hc r hret
    have hok := junk_run_allOk lim client rnd h p o sch hp hfit hc hnc
    obtain ⟨h1, _, h3⟩ := allOk_returned _ hinv hok r hret
    rw [hshares] at h3
    exact ⟨h1, by omega⟩

theorem junk_zero_numkeys_default_witness :
    [zeroKeysOpts][0]? = some zeroKeysOpts ∧ zeroKeysOpts.NumKeys = 0
    ∧ makeslice maxAlloc uintBytes zeroKeysOpts.effective.Parallelism = true
    ∧ itemsFit maxAlloc zeroKeysOpts.effective.ValueLength = true
    ∧ neverCancelled [.main, .work 0, .work 0] = true
    ∧ (junk maxAlloc okClient sampleRnd none [zeroKeysOpts] 0
        [.main, .work 0, .work 0]).opts.NumKeys = 51200
    ∧ (junk maxAlloc okClient sampleRnd none [zeroKeysOpts] 0
        [.main, .work 0, .work 0]).log.length ≤ 51200 := by
  have hthm := junk_zero_numkeys_default maxAlloc okClient sampleRnd [zeroKeysOpts] 0
    zeroKeysOpts [.main, .work 0, .work 0] rfl rfl (by decide) (by decide) (by decide) _ rfl
  exact ⟨rfl, rfl, by decide, by decide, by decide, hthm.1, hthm.2.2.1⟩

/-- C4 fails as stated: with NumKeys = 0, the context not cancelled and a
write dependency that always succeeds, the first goroutine has issued a write
after two of its steps, and there is a run without cancellation in which junk
returns nil after 51200 writes; and with NumKeys = 0 and Parallelism = 2^63
junk panics in the make of keyShares and returns nothing, whatever the
allocation limit and the schedule. -/
theorem junk_zero_numkeys_writes :
    zeroKeysOpts.NumKeys = 0
    ∧ (junk maxAlloc okClient sampleRnd none [zeroKeysOpts] 0
        [.main, .work 0, .work 0]).log.length = 1
    ∧ (∃ sch, neverCancelled sch = true
        ∧ (junk maxAlloc okClient sampleRnd none [zeroKeysOpts] 0 sch).status = .returned none
        ∧ (junk maxAlloc okClient sampleRnd none [zeroKeysOpts] 0 sch).log.length = 51200
        ∧ (junk maxAlloc okClient sampleRnd none [zeroKeysOpts] 0 sch).log ≠ [])
    ∧ zeroKeysHugeParOpts.NumKeys = 0
    ∧ ¬ ∃ lim sch r,
        (junk lim okClient sampleRnd none [zeroKeysHugeParOpts] 0 sch).status
          = .returned r := by
  refine ⟨rfl, by decide, ?_, rfl, ?_⟩
  · have hp : [zeroKeysOpts][0]? = some zeroKeysOpts := rfl
    have hfit : makeslice maxAlloc uintBytes zeroKeysOpts.effective.Parallelism = true := by
      decide
    have hitems : itemsFit maxAlloc zeroKeysOpts.effective.ValueLength = true := by decide
    obtain ⟨sch1, hnc, r, hret⟩ :=
      junk_returns maxAlloc okClient sampleRnd none [zeroKeysOpts] 0 zeroKeysOpts [] hp hfit
        hitems
    simp only [List.nil_append] at hret
    obtain ⟨shares, hsh, hl, _, _, hinv, hopts, hshares⟩ :=
      junk_run maxAlloc okClient sampleRnd none [zeroKeysOpts] 0 zeroKeysOpts sch1 hp hfit
    have hsum := effective_shares_sum maxAlloc zeroKeysOpts (by decide) hfit shares hsh
    have hnk : zeroKeysOpts.effective.NumKeys = 51200 := by decide
    have hok := junk_run_allOk maxAlloc okClient sampleRnd [zeroKeysOpts] 0 zeroKeysOpts sch1
      hp hfit (fun _ _ => rfl) hnc
    obtain ⟨h1, _, h3⟩ := allOk_returned _ hinv hok r hret
    rw [hshares] at h3
    have hlen :
        (junk maxAlloc okClient sampleRnd none [zeroKeysOpts] 0 sch1).log.length = 51200 := by
      omega
    refine ⟨sch1, hnc, by rw [hret, h1], hlen, ?_⟩
    intro hnil
    rw [hnil] at hlen
    cases hlen
  · rintro ⟨lim, sch, r, hret⟩
    rw [junk_noalloc lim okClient sampleRnd none [zeroKeysHugeParOpts] 0 zeroKeysHugeParOpts
      sch rfl (makeslice_neg lim uintBytes _ (by decide))] at hret
    cases hret

end RedisJunk
